import Mathlib

/-!
Verification of the chart-generation pipeline of the image-mcp-generation
repository, against a shallow embedding of the TypeScript sources
(mcp-server/src/agent/chartGenerator.ts and mcp-server/src/agent/ollama.ts).

Modelling conventions:
* Text is `List Char`.  String literals of the source appear verbatim
  (braces written with escape codes).
* JSON values are the inductive `Json`; arrays and objects are encoded as
  cons chains inside the same inductive so that all functions are plain
  structural recursions that the kernel can evaluate.
* Numeric JSON literals are modelled as integers; floating point is out of
  scope of the embedding (no claim depends on fractional values).
* The regex patterns of `parseChartDataFromText` are modelled by explicit
  leftmost-match searches reproducing the semantics of the four JavaScript
  regular expressions used by the code (lazy groups for the fenced-block
  patterns, greedy closure for the brace patterns).
* Fallible operations return `Option` / `Except`; a thrown-and-caught
  exception is `none`.
-/

set_option maxRecDepth 100000

/-! Basic character and substring utilities. -/

def lbrace : Char := Char.ofNat 123

def rbrace : Char := Char.ofNat 125

/-- Whitespace recognised by the JavaScript regex class backslash-s
(ASCII part: space, tab, newline, carriage return, vertical tab, form feed). -/
def isWsJs (c : Char) : Bool :=
  c = ' ' || c = '\t' || c = '\n' || c = '\r' || c = Char.ofNat 11 || c = Char.ofNat 12

/-- Whitespace of the JSON grammar (as accepted by JSON.parse). -/
def isWsJson (c : Char) : Bool := c = ' ' || c = '\t' || c = '\n' || c = '\r'

def toLowerAscii (c : Char) : Char :=
  if 'A' ≤ c && c ≤ 'Z' then Char.ofNat (c.toNat + 32) else c

/-- Model of JavaScript String.prototype.toLowerCase restricted to ASCII. -/
def lowerChars (t : List Char) : List Char := t.map toLowerAscii

/-- The pattern `pat` occurs in `t` at index `i`. -/
def occursAt (t pat : List Char) (i : Nat) : Bool := pat.isPrefixOf (t.drop i)

/-- Index of the leftmost occurrence of `pat` in `t`. -/
def firstOcc (t pat : List Char) : Option Nat :=
  if pat.isPrefixOf t then some 0
  else
    match t with
    | [] => none
    | _ :: ts => (firstOcc ts pat).map (· + 1)

/-- Leftmost occurrence of `pat` in `t` at an index that is at least `start`. -/
def firstOccFrom (t pat : List Char) (start : Nat) : Option Nat :=
  (firstOcc (t.drop start) pat).map (· + start)

/-- Model of JavaScript String.prototype.includes. -/
def containsSub (t pat : List Char) : Bool := (firstOcc t pat).isSome

/-- Index of the first occurrence of character `c` in `t`. -/
def firstIdxOf (t : List Char) (c : Char) : Option Nat := firstOcc t [c]

/-- Index of the last occurrence of character `c` in `t`. -/
def lastIdxOf (t : List Char) (c : Char) : Option Nat :=
  match t with
  | [] => none
  | x :: xs =>
    match lastIdxOf xs c with
    | some i => some (i + 1)
    | none => if x = c then some 0 else none

/-- The slice `t[s..e)` of a character list. -/
def listSlice (t : List Char) (s e : Nat) : List Char := (t.drop s).take (e - s)

/-- Model of String.prototype.trim / of stripping the regex class
backslash-s at both ends (what the lazy fenced-block groups produce). -/
def trimJs (t : List Char) : List Char :=
  ((t.dropWhile isWsJs).reverse.dropWhile isWsJs).reverse

/-! JSON values.  Arrays and objects are cons chains inside the single
inductive, so every function below is a kernel-reducible structural
recursion.  `jarrCons`/`jobjCons` tails other than the matching nil/cons
constructors never arise from the functions in this file. -/

inductive Json where
  | jnull : Json
  | jbool (b : Bool) : Json
  | jnum (n : Int) : Json
  | jstr (s : List Char) : Json
  | jarrNil : Json
  | jarrCons (head : Json) (tail : Json) : Json
  | jobjNil : Json
  | jobjCons (key : List Char) (val : Json) (tail : Json) : Json
deriving DecidableEq, Repr

open Json

/-- JavaScript truthiness of a JSON value (arrays and objects are truthy,
empty strings, zero, null and false are falsy). -/
def jsTruthy : Json → Bool
  | jnull => false
  | jbool b => b
  | jnum n => n ≠ 0
  | jstr s => s ≠ []
  | jarrNil => true
  | jarrCons _ _ => true
  | jobjNil => true
  | jobjCons _ _ _ => true

/-- Model of Array.isArray. -/
def isJsArray : Json → Bool
  | jarrNil => true
  | jarrCons _ _ => true
  | _ => false

/-- The elements of an array value as a Lean list. -/
def jarrToList : Json → List Json
  | jarrCons h t => h :: jarrToList t
  | _ => []

/-- Array value built from a Lean list of elements. -/
def arrOfList : List Json → Json
  | [] => jarrNil
  | j :: js => jarrCons j (arrOfList js)

/-- Last binding of `key` in an object (JSON.parse keeps the last duplicate). -/
def jsLookupLast : Json → List Char → Option Json
  | jobjCons k v t, key =>
    match jsLookupLast t key with
    | some r => some r
    | none => if k = key then some v else none
  | _, _ => none

/-- Model of JavaScript member access `parsed.key` on a parsed JSON value:
a missing member (or a non-object receiver) behaves as a falsy non-array
value, which `jnull` represents. -/
def jsGet (j : Json) (key : List Char) : Json := (jsLookupLast j key).getD jnull

/-! Serialization (model of JSON.stringify on parsed values). -/

def escChar (c : Char) : List Char :=
  if c = '"' then ['\\', '"']
  else if c = '\\' then ['\\', '\\']
  else if c = '\n' then ['\\', 'n']
  else if c = '\t' then ['\\', 't']
  else if c = '\r' then ['\\', 'r']
  else [c]

def escapeChars : List Char → List Char
  | [] => []
  | c :: cs => escChar c ++ escapeChars cs

def digitChar (n : Nat) : Char := Char.ofNat (48 + n)

def natDigitsAux : Nat → Nat → List Char → List Char
  | 0, _, acc => acc
  | fuel + 1, n, acc =>
    if n < 10 then digitChar n :: acc
    else natDigitsAux fuel (n / 10) (digitChar (n % 10) :: acc)

/-- Decimal digits of a natural number. -/
def natDigits (n : Nat) : List Char := natDigitsAux (n + 1) n []

/-- Decimal rendering of an integer. -/
def serInt (i : Int) : List Char :=
  if i < 0 then '-' :: natDigits i.natAbs else natDigits i.natAbs

inductive SerMode where
  | top | arrTail | objTail
deriving DecidableEq, Repr

/-- Serializer; the `arrTail`/`objTail` modes render the remainder of an
array or object chain (separating commas and the closing bracket). -/
def serJ : SerMode → Json → List Char
  | .top, jnull => ['n', 'u', 'l', 'l']
  | .top, jbool true => ['t', 'r', 'u', 'e']
  | .top, jbool false => ['f', 'a', 'l', 's', 'e']
  | .top, jnum i => serInt i
  | .top, jstr s => '"' :: escapeChars s ++ ['"']
  | .top, jarrNil => ['[', ']']
  | .top, jarrCons h t => '[' :: serJ .top h ++ serJ .arrTail t
  | .top, jobjNil => [lbrace, rbrace]
  | .top, jobjCons k v t =>
    lbrace :: '"' :: escapeChars k ++ '"' :: ':' :: serJ .top v ++ serJ .objTail t
  | .arrTail, jarrCons h t => ',' :: serJ .top h ++ serJ .arrTail t
  | .arrTail, _ => [']']
  | .objTail, jobjCons k v t =>
    ',' :: '"' :: escapeChars k ++ '"' :: ':' :: serJ .top v ++ serJ .objTail t
  | .objTail, _ => [rbrace]

def serVal (j : Json) : List Char := serJ .top j

/-! Parsing (model of JSON.parse; numeric literals restricted to integers). -/

def skipWsJson : List Char → List Char
  | [] => []
  | c :: cs => if isWsJson c then skipWsJson cs else c :: cs

def isDigitCh (c : Char) : Bool := '0' ≤ c && c ≤ '9'

def digitVal (c : Char) : Nat := c.toNat - 48

def readNatChars (t : List Char) : Nat × List Char :=
  ((t.takeWhile isDigitCh).foldl (fun acc c => 10 * acc + digitVal c) 0,
   t.dropWhile isDigitCh)

def hexVal (c : Char) : Nat :=
  if '0' ≤ c && c ≤ '9' then c.toNat - 48
  else if 'a' ≤ c && c ≤ 'f' then c.toNat - 87
  else if 'A' ≤ c && c ≤ 'F' then c.toNat - 55
  else 0

def isHexCh (c : Char) : Bool :=
  ('0' ≤ c && c ≤ '9') || ('a' ≤ c && c ≤ 'f') || ('A' ≤ c && c ≤ 'F')

/-- Body of a JSON string literal after the opening quote; handles the
escape sequences JSON.parse accepts, including unicode escapes. -/
def parseStrBody : List Char → Option (List Char × List Char)
  | [] => none
  | c :: cs =>
    if c = '"' then some ([], cs)
    else if c = '\\' then
      match cs with
      | [] => none
      | e :: cs2 =>
        if e = 'u' then
          match cs2 with
          | h1 :: h2 :: h3 :: h4 :: cs3 =>
            if isHexCh h1 && isHexCh h2 && isHexCh h3 && isHexCh h4 then
              match parseStrBody cs3 with
              | some (s, rest) =>
                some (Char.ofNat
                  (((hexVal h1 * 16 + hexVal h2) * 16 + hexVal h3) * 16 + hexVal h4) :: s, rest)
              | none => none
            else none
          | _ => none
        else
          let dec : Option Char :=
            if e = '"' then some '"'
            else if e = '\\' then some '\\'
            else if e = '/' then some '/'
            else if e = 'n' then some '\n'
            else if e = 't' then some '\t'
            else if e = 'r' then some '\r'
            else if e = 'b' then some (Char.ofNat 8)
            else if e = 'f' then some (Char.ofNat 12)
            else none
          match dec with
          | none => none
          | some d =>
            match parseStrBody cs2 with
            | some (s, rest) => some (d :: s, rest)
            | none => none
    else
      match parseStrBody cs with
      | some (s, rest) => some (c :: s, rest)
      | none => none

inductive PMode where
  | top | elems | members
deriving DecidableEq, Repr

/-- Fueled recursive-descent JSON value reader.  `elems` reads the elements
of an array after its opening bracket (first element onward), `members` the
members of an object after its opening brace. -/
def parseF : Nat → PMode → List Char → Option (Json × List Char)
  | 0, _, _ => none
  | fuel + 1, .top, t =>
    match skipWsJson t with
    | [] => none
    | c :: cs =>
      if c = 'n' then
        if ['u', 'l', 'l'].isPrefixOf cs then some (jnull, cs.drop 3) else none
      else if c = 't' then
        if ['r', 'u', 'e'].isPrefixOf cs then some (jbool true, cs.drop 3) else none
      else if c = 'f' then
        if ['a', 'l', 's', 'e'].isPrefixOf cs then some (jbool false, cs.drop 4) else none
      else if c = '"' then
        match parseStrBody cs with
        | some (s, rest) => some (jstr s, rest)
        | none => none
      else if c = '-' then
        match cs with
        | d :: _ =>
          if isDigitCh d then
            let (n, rest) := readNatChars cs
            some (jnum (-(n : Int)), rest)
          else none
        | [] => none
      else if isDigitCh c then
        let (n, rest) := readNatChars (c :: cs)
        some (jnum (n : Int), rest)
      else if c = '[' then
        match skipWsJson cs with
        | [] => none
        | r :: rest2 => if r = ']' then some (jarrNil, rest2) else parseF fuel .elems cs
      else if c = lbrace then
        match skipWsJson cs with
        | [] => none
        | r :: rest2 => if r = rbrace then some (jobjNil, rest2) else parseF fuel .members cs
      else none
  | fuel + 1, .elems, t =>
    match parseF fuel .top t with
    | none => none
    | some (v, r) =>
      match skipWsJson r with
      | [] => none
      | r1 :: r2 =>
        if r1 = ',' then
          match parseF fuel .elems r2 with
          | some (tl, r3) => some (jarrCons v tl, r3)
          | none => none
        else if r1 = ']' then some (jarrCons v jarrNil, r2)
        else none
  | fuel + 1, .members, t =>
    match skipWsJson t with
    | [] => none
    | q :: cs =>
      if q = '"' then
        match parseStrBody cs with
        | none => none
        | some (k, r) =>
          match skipWsJson r with
          | [] => none
          | r1 :: r2 =>
            if r1 = ':' then
              match parseF fuel .top r2 with
              | none => none
              | some (v, r3) =>
                match skipWsJson r3 with
                | [] => none
                | b :: r4 =>
                  if b = ',' then
                    match parseF fuel .members r4 with
                    | some (tl, r5) => some (jobjCons k v tl, r5)
                    | none => none
                  else if b = rbrace then some (jobjCons k v jobjNil, r4)
                  else none
            else none
      else none

/-- Model of JSON.parse: one value, possibly surrounded by whitespace,
consuming the entire input; any failure is the thrown-exception case.  The
fuel bound dominates the recursion depth of any input of this length. -/
def jsonParse (s : List Char) : Option Json :=
  match parseF (2 * s.length + 1) .top s with
  | some (j, rest) => if skipWsJson rest = [] then some j else none
  | none => none

/-! Models of the four extraction regexes of parseChartDataFromText
(chartGenerator.ts lines 324-335).  Each returns what the code derives from
the match object: the captured group (for the fenced patterns) and the full
match text. -/

def ticksPat : List Char := ['`', '`', '`']

def ticksJsonPat : List Char := ['`', '`', '`', 'j', 's', 'o', 'n']

def quotedLabelsPat : List Char := '"' :: ("labels".data) ++ ['"']

def quotedDatasetsPat : List Char := '"' :: ("datasets".data) ++ ['"']

/-- Leftmost match of the lazy fenced-block regex with opening tag `opn`:
the group is the backslash-s-trimmed span between the opening tag and the
next closing triple backtick. -/
def matchFenced (t : List Char) (opn : List Char) : Option (List Char × List Char) :=
  match firstOcc t opn with
  | none => none
  | some i =>
    match firstOccFrom t ticksPat (i + opn.length) with
    | none => none
    | some c => some (trimJs (listSlice t (i + opn.length) c), listSlice t i (c + 3))

/-- Leftmost-then-greedy match of the brace regex requiring a quoted labels
field followed by a quoted datasets field: from the first feasible opening
brace to the last closing brace of the text. -/
def matchLabelsDatasets (t : List Char) : Option (List Char) :=
  match firstIdxOf t lbrace with
  | none => none
  | some s =>
    match firstOccFrom t quotedLabelsPat (s + 1) with
    | none => none
    | some p1 =>
      match firstOccFrom t quotedDatasetsPat (p1 + quotedLabelsPat.length) with
      | none => none
      | some p2 =>
        match lastIdxOf t rbrace with
        | none => none
        | some e =>
          if p2 + quotedDatasetsPat.length ≤ e then some (listSlice t s (e + 1)) else none

/-- Leftmost-then-greedy match of the final brace regex (at least twenty
characters between the braces). -/
def matchAnyBrace (t : List Char) : Option (List Char) :=
  match firstIdxOf t lbrace with
  | none => none
  | some s =>
    match lastIdxOf t rbrace with
    | none => none
    | some e => if s + 21 ≤ e then some (listSlice t s (e + 1)) else none

/-- The code reads `jsonMatch[1] || jsonMatch[0]`: the captured group when
it is non-empty, otherwise the whole match text. -/
def jsonStrOfFence (group match0 : List Char) : List Char :=
  if group = [] then match0 else group

/-! The chart specification data model (chartGenerator.ts lines 10-30 and
the result shape of parseChartDataFromText).  Field values that the code
never validates are kept as JSON values. -/

structure ParsedDataset where
  label : Json
  data : List Json
deriving DecidableEq, Repr

structure ChartDataParsed where
  labels : List Json
  datasets : List ParsedDataset
deriving DecidableEq, Repr

structure ChartOptions where
  type : Json
  title : Json := Json.jstr []
  watermarkPrompt : Option (List Char) := none
  backgroundImagePrompt : Option (List Char) := none
  backgroundColor : Option (List Char) := none
  backgroundDescription : Option (List Char) := none
deriving DecidableEq, Repr

structure ParsedChart where
  data : ChartDataParsed
  options : ChartOptions
deriving DecidableEq, Repr

/-- Final validation of parseChartDataFromText (chartGenerator.ts
lines 381-396): the result is returned only when the labels are non-empty
and the first dataset has non-empty data (short-circuit evaluation guards
the index access on an empty dataset list). -/
def validateSpec (labels : List Json) (datasets : List ParsedDataset)
    (options : ChartOptions) : Option ParsedChart :=
  let ok : Bool :=
    decide (0 < labels.length) &&
      (match datasets with
       | [] => false
       | d0 :: _ => decide (0 < d0.data.length))
  if ok then some { data := { labels := labels, datasets := datasets }, options := options }
  else none

/-- Field extraction, type/title resolution and final validation of
parseChartDataFromText (chartGenerator.ts lines 344-396), applied to the
parsed JSON value; `text` is the full model response, used for the
keyword-based chart type fallback. -/
def buildChartSpec (text : List Char) (parsed : Json) : Option ParsedChart :=
  let labels : List Json :=
    let v := jsGet parsed ("labels".data)
    if jsTruthy v && isJsArray v then jarrToList v else []
  let datasets : List ParsedDataset :=
    let v := jsGet parsed ("datasets".data)
    if jsTruthy v && isJsArray v then
      (jarrToList v).map (fun ds =>
        { label := let l := jsGet ds ("label".data)
                   if jsTruthy l then l else Json.jstr ("Dataset".data)
          data := let d := jsGet ds ("data".data)
                  if isJsArray d then jarrToList d else [] })
    else
      let v2 := jsGet parsed ("data".data)
      if jsTruthy v2 && isJsArray v2 then
        [{ label := let l := jsGet parsed ("label".data)
                    if jsTruthy l then l else Json.jstr ("Data".data)
           data := jarrToList v2 }]
      else []
  let chartType : Json :=
    let tv := jsGet parsed ("type".data)
    if jsTruthy tv then tv
    else if containsSub (lowerChars text) ("pie".data) then Json.jstr ("pie".data)
    else if containsSub (lowerChars text) ("line".data) then Json.jstr ("line".data)
    else if containsSub (lowerChars text) ("bar".data) then Json.jstr ("bar".data)
    else Json.jstr ("bar".data)
  let title : Json :=
    let tv := jsGet parsed ("title".data)
    if jsTruthy tv then tv else Json.jstr []
  validateSpec labels datasets { type := chartType, title := title }

/-- Model of ChartGenerator.parseChartDataFromText (chartGenerator.ts
lines 319-409): the four extraction patterns are attempted in order and the
first match is committed to; its text goes through JSON.parse, then field
extraction and validation; every failure (no match, a parse exception, or
failed validation) yields null. -/
def parseChartDataFromText (text : List Char) : Option ParsedChart :=
  let jsonStr : Option (List Char) :=
    match matchFenced text ticksJsonPat with
    | some (g, m0) => some (jsonStrOfFence g m0)
    | none =>
      match matchFenced text ticksPat with
      | some (g, m0) => some (jsonStrOfFence g m0)
      | none =>
        match matchLabelsDatasets text with
        | some m0 => some m0
        | none =>
          match matchAnyBrace text with
          | some m0 => some m0
          | none => none
  match jsonStr with
  | none => none
  | some s =>
    match jsonParse s with
    | none => none
    | some parsed => buildChartSpec text parsed

/-- JSON object for a successfully extracted chart specification, in the
shape of the ChartSpecification data model of the specification
(type, title, labels, datasets). -/
def specToJson (p : ParsedChart) : Json :=
  jobjCons ("type".data) p.options.type
    (jobjCons ("title".data) p.options.title
      (jobjCons ("labels".data) (arrOfList p.data.labels)
        (jobjCons ("datasets".data)
          (arrOfList (p.data.datasets.map (fun d =>
            jobjCons ("label".data) d.label
              (jobjCons ("data".data) (arrOfList d.data) jobjNil))))
          jobjNil)))

/-- The JSON serialization of an extracted chart specification. -/
def serializeSpec (p : ParsedChart) : List Char := serVal (specToJson p)

example :
    parseChartDataFromText
      ("\x7b\"labels\":[\"a\"],\"datasets\":[\x7b\"label\":\"d\",\"data\":[1]\x7d]\x7d".data)
      = some
        { data :=
            { labels := [jstr ['a']],
              datasets := [{ label := jstr ['d'], data := [jnum 1] }] },
          options := { type := jstr ("bar".data), title := jstr [] } } := by decide

example :
    parseChartDataFromText ("no structured data here".data) = none := by decide

/-! Model of Agent.extractWatermarkPrompt (ollama.ts lines 321-336): a
global case-insensitive regex replace of a fixed word alternation by the
empty string, then trim, whitespace split, length filter, first five words. -/

def watermarkStopWords : List (List Char) :=
  ["create", "show", "generate", "display", "chart", "graph", "pie", "bar",
   "line", "doughnut", "me", "a", "an", "the"].map String.toList

/-- First alternative of the alternation matching at the head of `t`
(case-insensitive), returning its length, as the regex engine does. -/
def altMatchAt (t : List Char) (ws : List (List Char)) : Option Nat :=
  match ws with
  | [] => none
  | w :: rest => if lowerChars (t.take w.length) = w then some w.length else altMatchAt t rest

/-- Global replace of the alternation by the empty string (scan left to
right, at each position either consume a match or emit the character). -/
def stripStopWords : Nat → List Char → List Char
  | 0, _ => []
  | _, [] => []
  | fuel + 1, c :: cs =>
    match altMatchAt (c :: cs) watermarkStopWords with
    | some n => stripStopWords fuel ((c :: cs).drop n)
    | none => c :: stripStopWords fuel cs

/-- Split on whitespace runs (model of split with a whitespace-run regex on
an already trimmed string). -/
def splitWsChunks : List Char → List Char → List (List Char)
  | [], cur => if cur = [] then [] else [cur.reverse]
  | c :: cs, cur =>
    if isWsJs c then
      if cur = [] then splitWsChunks cs [] else cur.reverse :: splitWsChunks cs []
    else splitWsChunks cs (c :: cur)

def joinSpace : List (List Char) → List Char
  | [] => []
  | [w] => w
  | w :: ws => w ++ ' ' :: joinSpace ws

def extractWatermarkPrompt (userMessage : List Char) : List Char :=
  let cleaned := trimJs (stripStopWords userMessage.length userMessage)
  let words := ((splitWsChunks cleaned []).filter (fun w => 2 < w.length)).take 5
  if words ≠ [] then joinSpace words else userMessage.take 15

/-! Model of Agent.generateFallbackChart (ollama.ts lines 274-315).  The
keyword buckets replace the label array (and for the quarter bucket also
the data array) through Array.prototype.splice on five-element arrays;
the resulting arrays are written out directly. -/

def generateFallbackChart (userMessage : List Char) : ParsedChart :=
  let lowerMessage := lowerChars userMessage
  let chartType : List Char :=
    if containsSub lowerMessage ("pie".data) then "pie".data
    else if containsSub lowerMessage ("doughnut".data) then "doughnut".data
    else if containsSub lowerMessage ("line".data) || containsSub lowerMessage ("trend".data) then
      "line".data
    else "bar".data
  let labels : List (List Char) :=
    if containsSub lowerMessage ("month".data) then
      ["Jan".data, "Feb".data, "Mar".data, "Apr".data, "May".data]
    else if containsSub lowerMessage ("quarter".data) then
      ["Q1".data, "Q2".data, "Q3".data, "Q4".data, "Category E".data]
    else if containsSub lowerMessage ("product".data) then
      ["Product 1".data, "Product 2".data, "Product 3".data, "Product 4".data,
       "Product 5".data]
    else
      ["Category A".data, "Category B".data, "Category C".data, "Category D".data,
       "Category E".data]
  let dataVals : List Int :=
    if containsSub lowerMessage ("month".data) then [25, 30, 20, 15, 10]
    else if containsSub lowerMessage ("quarter".data) then [30, 35, 28, 32, 10]
    else [25, 30, 20, 15, 10]
  { data :=
      { labels := labels.map (fun l => Json.jstr l),
        datasets := [{ label := Json.jstr ("Sample Data".data),
                       data := dataVals.map (fun n => Json.jnum n) }] },
    options :=
      { type := Json.jstr chartType,
        title := Json.jstr ("Generated Chart".data),
        watermarkPrompt := some (extractWatermarkPrompt userMessage) } }

/-! Model of Agent.isChartRequest (ollama.ts lines 263-272). -/

def chartKeywords : List (List Char) :=
  ["chart", "graph", "plot", "visualize", "visualization", "bar chart",
   "line chart", "pie chart", "histogram", "show me", "create a",
   "generate a", "draw a"].map String.toList

def isChartRequest (message : List Char) : Bool :=
  chartKeywords.any (fun k => containsSub (lowerChars message) k)

/-! Model of the Agent conversation state (ollama.ts).  A chat turn makes
exactly one model call (with the chart prompt on the chart path, with the
history on the regular path); the call outcome is passed in as an oracle:
`some response` for a completed stream, `none` for a thrown error.  History
mutation is identical on both paths: the user turn is appended before the
call, the assistant turn after a successful call, then the history is
trimmed; a thrown call propagates out of chat before those last two steps. -/

inductive Role where
  | system | user | assistant
deriving DecidableEq, Repr

structure ChatMessage where
  role : Role
  content : List Char
deriving DecidableEq, Repr

structure AgentState where
  conversationHistory : List ChatMessage
deriving DecidableEq, Repr

/-- Constructor of Agent: the history starts with the system turn. -/
def initialAgentState (systemPrompt : List Char) : AgentState :=
  { conversationHistory := [{ role := .system, content := systemPrompt }] }

/-- Model of Agent.trimHistory (ollama.ts lines 379-389): keep the first
entry and the last twenty entries whenever the length exceeds twenty-one. -/
def trimHistory (h : List ChatMessage) : List ChatMessage :=
  if 21 < h.length then h.take 1 ++ h.drop (h.length - 20) else h

/-- Model of Agent.clearHistory (ollama.ts lines 391-393). -/
def clearHistory (st : AgentState) : AgentState :=
  { conversationHistory := st.conversationHistory.take 1 }

/-- Model of Agent.chat restricted to its conversation-history effect and
its result; `modelResponse` is the oracle for the single model call. -/
def agentChat (st : AgentState) (userMessage : List Char)
    (modelResponse : Option (List Char)) : AgentState × Except Unit (List Char) :=
  let h1 := st.conversationHistory ++ [{ role := .user, content := userMessage }]
  match modelResponse with
  | none => ({ conversationHistory := h1 }, .error ())
  | some resp =>
    ({ conversationHistory :=
         trimHistory (h1 ++ [{ role := .assistant, content := resp }]) },
     .ok resp)

/-- The chart specification the chat path renders for a chart request with
model response `resp` (ollama.ts lines 175-182): the parsed specification,
or the fallback chart when parsing fails. -/
def agentChatChartSpec (userMessage resp : List Char) : ParsedChart :=
  match parseChartDataFromText resp with
  | some spec => spec
  | none => generateFallbackChart userMessage

/-- Model of Agent.generateAIChart (ollama.ts lines 249-261) up to the
compositor: the model response is parsed; a parse failure throws (no
fallback); otherwise the specification is handed to generateFromData.
`modelResponse` is `none` when the generation call itself throws. -/
def generateAIChart (modelResponse : Option (List Char)) : Except Unit ParsedChart :=
  match modelResponse with
  | none => .error ()
  | some resp =>
    match parseChartDataFromText resp with
    | none => .error ()
    | some spec => .ok spec

/-! Model of the background synthesis routing (chartGenerator.ts
lines 198-205 inside generateBackgroundImage, with the color tables of
createGradientBackground lines 217-238 and createColorBackground
lines 271-286).  `description` is the trimmed, lowercased model response. -/

inductive BackgroundKind where
  | gradientBackground (stop0 stop1 : List Char)
  | patternBackground
  | colorBackground (color : List Char)
deriving DecidableEq, Repr

def gradientStopsFor (description : List Char) : List Char × List Char :=
  if containsSub description ("blue".data) then
    ("rgba(240, 248, 255, 0.8)".data, "rgba(230, 240, 255, 0.8)".data)
  else if containsSub description ("green".data) then
    ("rgba(240, 255, 240, 0.8)".data, "rgba(230, 255, 230, 0.8)".data)
  else if containsSub description ("purple".data) then
    ("rgba(250, 245, 255, 0.8)".data, "rgba(240, 235, 255, 0.8)".data)
  else
    ("rgba(255, 255, 255, 0.95)".data, "rgba(248, 250, 252, 0.95)".data)

def colorFor (description : List Char) : List Char :=
  if containsSub description ("blue".data) then "rgba(240, 248, 255, 0.9)".data
  else if containsSub description ("green".data) then "rgba(240, 255, 240, 0.9)".data
  else if containsSub description ("gray".data) || containsSub description ("grey".data) then
    "rgba(248, 250, 252, 0.9)".data
  else if containsSub description ("light".data) then "rgba(255, 255, 255, 0.95)".data
  else "#ffffff".data

/-- The drawing procedure generateBackgroundImage selects from the
description (the duplicated gradient test of the source collapses to one). -/
def generateBackgroundKind (description : List Char) : BackgroundKind :=
  if containsSub description ("gradient".data) then
    .gradientBackground (gradientStopsFor description).1 (gradientStopsFor description).2
  else if containsSub description ("grid".data) || containsSub description ("pattern".data) then
    .patternBackground
  else .colorBackground (colorFor description)

/-! Model of the watermark source decision of ChartGenerator.generateFromData
(chartGenerator.ts lines 104-144), after applyBackground (lines 153-174) has
possibly written the background description back into the options. -/

def truthyStrOpt : Option (List Char) → Bool
  | none => false
  | some s => s ≠ []

/-- Effect of applyBackground on the options: when a background image prompt
is set and an Ollama client exists, a successful generateBackgroundImage
result stores its description; a thrown or null result leaves the options
unchanged.  `backgroundGen` is the oracle for that call. -/
def applyBackgroundOptions (options : ChartOptions) (hasOllamaClient : Bool)
    (backgroundGen : Option (List Char)) : ChartOptions :=
  if truthyStrOpt options.backgroundImagePrompt && hasOllamaClient then
    match backgroundGen with
    | some desc => { options with backgroundDescription := some desc }
    | none => options
  else options

inductive WatermarkSource where
  | fromBackgroundDescription (text : List Char)
  | fromWatermarkPromptModelCall (prompt : List Char)
  | noWatermark
deriving DecidableEq, Repr

/-- The watermark branch of generateFromData: `watermarkText` is the
JavaScript or-expression over the two option fields; a truthy background
description goes to applyWatermarkTextToCanvas (no model call), otherwise a
truthy watermark prompt goes to applyWatermarkToCanvas (model call). -/
def watermarkSourceOf (options : ChartOptions) : WatermarkSource :=
  let watermarkText : Option (List Char) :=
    if truthyStrOpt options.backgroundDescription then options.backgroundDescription
    else options.watermarkPrompt
  if truthyStrOpt watermarkText then
    if truthyStrOpt options.backgroundDescription then
      .fromBackgroundDescription (options.backgroundDescription.getD [])
    else .fromWatermarkPromptModelCall (options.watermarkPrompt.getD [])
  else .noWatermark

/-- Watermark source selected by a generateFromData run with the given
initial options and background-call oracle. -/
def generateFromDataWatermarkSource (options : ChartOptions) (hasOllamaClient : Bool)
    (backgroundGen : Option (List Char)) : WatermarkSource :=
  watermarkSourceOf (applyBackgroundOptions options hasOllamaClient backgroundGen)

/-! Model of ChartGenerator.applyDefaultColors (chartGenerator.ts
lines 288-317).  The datasets of the ChartData interface carry their
optional style fields. -/

inductive ColorValue where
  | single (c : List Char)
  | multiple (cs : List (List Char))
deriving DecidableEq, Repr

structure RenderDataset where
  label : List Char
  data : List Int
  backgroundColor : Option ColorValue := none
  borderColor : Option ColorValue := none
  borderWidth : Option Int := none
deriving DecidableEq, Repr

structure RenderChartData where
  labels : List (List Char)
  datasets : List RenderDataset
deriving DecidableEq, Repr

def defaultColors : List (List Char) :=
  ["rgba(54, 162, 235, 0.8)", "rgba(255, 99, 132, 0.8)", "rgba(75, 192, 192, 0.8)",
   "rgba(255, 206, 86, 0.8)", "rgba(153, 102, 255, 0.8)", "rgba(255, 159, 64, 0.8)",
   "rgba(199, 199, 199, 0.8)", "rgba(83, 102, 255, 0.8)"].map String.toList

def replaceFirst (t pat rep : List Char) : List Char :=
  match firstOcc t pat with
  | none => t
  | some i => t.take i ++ rep ++ t.drop (i + pat.length)

def borderColors : List (List Char) :=
  defaultColors.map (fun c => replaceFirst c ("0.8".data) ("1".data))

def truthyColorOpt : Option ColorValue → Bool
  | none => false
  | some (.single c) => c ≠ []
  | some (.multiple _) => true

def isPieLike (type : List Char) : Bool := type = "pie".data || type = "doughnut".data

def applyDefaultColorsAux (type : List Char) (labelsLen : Nat) :
    Nat → List RenderDataset → List RenderDataset
  | _, [] => []
  | i, ds :: rest =>
    { ds with
      backgroundColor :=
        if truthyColorOpt ds.backgroundColor then ds.backgroundColor
        else
          some (if isPieLike type then ColorValue.multiple (defaultColors.take labelsLen)
                else ColorValue.single ((defaultColors.getD (i % defaultColors.length) [])))
      borderColor :=
        if truthyColorOpt ds.borderColor then ds.borderColor
        else
          some (if isPieLike type then ColorValue.multiple (borderColors.take labelsLen)
                else ColorValue.single ((borderColors.getD (i % borderColors.length) [])))
      borderWidth :=
        some (match ds.borderWidth with
              | some w => if w = 0 then 2 else w
              | none => 2) } :: applyDefaultColorsAux type labelsLen (i + 1) rest

def applyDefaultColors (data : RenderChartData) (type : List Char) : RenderChartData :=
  { data with datasets := applyDefaultColorsAux type data.labels.length 0 data.datasets }

/-! A second extractor definition following the words of the specification
(section 4.2): attempt the four patterns in order and stop at the first
pattern whose extracted text parses as a structured object.  It is compared
against the code model `parseChartDataFromText`, which commits to the first
pattern that merely matches. -/

def extractorSpecReading (text : List Char) : Option ParsedChart :=
  let tryFence (opn : List Char) : Option Json :=
    match matchFenced text opn with
    | some (g, m0) => jsonParse (jsonStrOfFence g m0)
    | none => none
  let parsed : Option Json :=
    match tryFence ticksJsonPat with
    | some j => some j
    | none =>
      match tryFence ticksPat with
      | some j => some j
      | none =>
        match (matchLabelsDatasets text).bind jsonParse with
        | some j => some j
        | none => (matchAnyBrace text).bind jsonParse
  match parsed with
  | none => none
  | some j => buildChartSpec text j

example :
    generateBackgroundKind ("blue gradient".data)
      = .gradientBackground ("rgba(240, 248, 255, 0.8)".data) ("rgba(230, 240, 255, 0.8)".data) := by
  decide

/-! Supporting lemmas. -/

theorem validateSpec_some (labels : List Json) (datasets : List ParsedDataset)
    (options : ChartOptions) (spec : ParsedChart)
    (h : validateSpec labels datasets options = some spec) :
    spec.data.labels = labels ∧ spec.data.datasets = datasets ∧ spec.options = options ∧
    labels ≠ [] ∧ ∃ d0 rest, datasets = d0 :: rest ∧ d0.data ≠ [] := by
  cases datasets with
  | nil =>
    simp only [validateSpec, Bool.and_false, if_false] at h
    cases h
  | cons d0 rest =>
    simp only [validateSpec] at h
    split at h
    · rename_i hok
      injection h with h
      subst h
      simp only [Bool.and_eq_true, decide_eq_true_eq] at hok
      refine ⟨rfl, rfl, rfl, ?_, d0, rest, rfl, ?_⟩
      · intro hnil
        rw [hnil] at hok
        simp at hok
      · intro hnil
        rw [hnil] at hok
        simp at hok
    · cases h

theorem buildChartSpec_valid (text : List Char) (parsed : Json) (spec : ParsedChart)
    (h : buildChartSpec text parsed = some spec) :
    spec.data.labels ≠ [] ∧ ∃ ds ∈ spec.data.datasets, ds.data ≠ [] := by
  simp only [buildChartSpec] at h
  obtain ⟨hl, hd, _, hne, d0, rest, hds, hdne⟩ := validateSpec_some _ _ _ _ h
  refine ⟨by rw [hl]; exact hne, d0, ?_, hdne⟩
  rw [hd, hds]
  exact List.mem_cons_self d0 rest

theorem parse_some_imp_build (text : List Char) (spec : ParsedChart)
    (h : parseChartDataFromText text = some spec) :
    ∃ parsed, buildChartSpec text parsed = some spec := by
  simp only [parseChartDataFromText] at h
  repeat split at h
  all_goals repeat split at h
  all_goals first
    | exact ⟨_, h⟩
    | simp at h

/-- C1: for every input text, parseChartDataFromText returns a specification
only when the extracted labels are non-empty and at least one dataset has
non-empty data; parse exceptions and failed validation are the `none` cases
of the model, so no partially-populated specification escapes. -/
theorem c1_parse_only_if_valid (text : List Char) (spec : ParsedChart)
    (h : parseChartDataFromText text = some spec) :
    spec.data.labels ≠ [] ∧ ∃ ds ∈ spec.data.datasets, ds.data ≠ [] := by
  obtain ⟨parsed, hb⟩ := parse_some_imp_build text spec h
  exact buildChartSpec_valid text parsed spec hb

def c1Text : List Char :=
  "\x7b\"labels\":[\"a\"],\"datasets\":[\x7b\"label\":\"d\",\"data\":[1]\x7d]\x7d".data

def c1Spec : ParsedChart :=
  { data := { labels := [jstr ['a']], datasets := [{ label := jstr ['d'], data := [jnum 1] }] },
    options := { type := jstr ("bar".data), title := jstr [] } }

theorem c1_parse_only_if_valid_witness :
    parseChartDataFromText c1Text = some c1Spec ∧
    (c1Spec.data.labels ≠ [] ∧ ∃ ds ∈ c1Spec.data.datasets, ds.data ≠ []) :=
  ⟨by decide, c1_parse_only_if_valid c1Text c1Spec (by decide)⟩

/-- C3: the fallback chart generator produces, for every user message
(including the empty one), a specification with non-empty labels and at
least one dataset with non-empty data. -/
theorem c3_fallback_always_valid (userMessage : List Char) :
    (generateFallbackChart userMessage).data.labels ≠ [] ∧
    ∃ ds ∈ (generateFallbackChart userMessage).data.datasets, ds.data ≠ [] := by
  simp only [generateFallbackChart]
  constructor
  · repeat' split
    all_goals simp
  · refine ⟨_, List.mem_singleton.mpr rfl, ?_⟩
    repeat' split
    all_goals simp

/-- C6: when the model call of a chat turn fails, the error is surfaced as
the result of the turn, and the history holds exactly the old turns plus
the user turn (the assistant turn is not appended). -/
theorem c6_model_failure_surfaced (st : AgentState) (userMessage : List Char) :
    (agentChat st userMessage none).2 = Except.error () ∧
    (agentChat st userMessage none).1.conversationHistory
      = st.conversationHistory ++ [{ role := Role.user, content := userMessage }] :=
  ⟨rfl, rfl⟩

/-- C9: when extraction fails on the model response, generateAIChart throws
(no chart is produced and no fallback runs), while the chat path for the
same response substitutes the fallback chart. -/
theorem c9_generateAIChart_errors (resp userMessage : List Char)
    (h : parseChartDataFromText resp = none) :
    generateAIChart (some resp) = Except.error () ∧
    agentChatChartSpec userMessage resp = generateFallbackChart userMessage := by
  constructor
  · simp [generateAIChart, h]
  · simp [agentChatChartSpec, h]

def c9Resp : List Char := "no structured output".data

def c9Msg : List Char := "draw a chart of sales".data

theorem c9_generateAIChart_errors_witness :
    parseChartDataFromText c9Resp = none ∧
    (generateAIChart (some c9Resp) = Except.error () ∧
     agentChatChartSpec c9Msg c9Resp = generateFallbackChart c9Msg) :=
  ⟨by decide, c9_generateAIChart_errors c9Resp c9Msg (by decide)⟩

theorem applyDefaultColorsAux_labels (type : List Char) (labelsLen : Nat) :
    ∀ (dss : List RenderDataset) (i : Nat),
      (applyDefaultColorsAux type labelsLen i dss).map (fun ds => ds.label)
        = dss.map (fun ds => ds.label) := by
  intro dss
  induction dss with
  | nil => intro i; rfl
  | cons d rest ih =>
    intro i
    simp only [applyDefaultColorsAux, List.map_cons]
    exact congrArg _ (ih (i + 1))

theorem applyDefaultColorsAux_data (type : List Char) (labelsLen : Nat) :
    ∀ (dss : List RenderDataset) (i : Nat),
      (applyDefaultColorsAux type labelsLen i dss).map (fun ds => ds.data)
        = dss.map (fun ds => ds.data) := by
  intro dss
  induction dss with
  | nil => intro i; rfl
  | cons d rest ih =>
    intro i
    simp only [applyDefaultColorsAux, List.map_cons]
    exact congrArg _ (ih (i + 1))

theorem applyDefaultColorsAux_borderWidth (type : List Char) (labelsLen : Nat) :
    ∀ (dss : List RenderDataset) (i : Nat),
      (applyDefaultColorsAux type labelsLen i dss).map (fun ds => ds.borderWidth)
        = dss.map (fun ds =>
            some (match ds.borderWidth with
                  | some w => if w = 0 then 2 else w
                  | none => (2 : Int))) := by
  intro dss
  induction dss with
  | nil => intro i; rfl
  | cons d rest ih =>
    intro i
    simp only [applyDefaultColorsAux, List.map_cons]
    exact congrArg _ (ih (i + 1))

/-- C10: applyDefaultColors (the defaulting step of generateFromData)
turns an absent border width and an explicitly supplied border width of
zero both into the default 2 (JavaScript or-defaulting on a falsy number),
so a zero-width border can never reach the renderer; the labels, every
dataset label and every data sequence pass through unchanged. -/
theorem c10_applyDefaultColors_borderWidth (data : RenderChartData) (type : List Char) :
    (applyDefaultColors data type).labels = data.labels ∧
    (applyDefaultColors data type).datasets.map (fun ds => ds.label)
      = data.datasets.map (fun ds => ds.label) ∧
    (applyDefaultColors data type).datasets.map (fun ds => ds.data)
      = data.datasets.map (fun ds => ds.data) ∧
    (applyDefaultColors data type).datasets.map (fun ds => ds.borderWidth)
      = data.datasets.map (fun ds =>
          some (match ds.borderWidth with
                | some w => if w = 0 then 2 else w
                | none => (2 : Int))) :=
  ⟨rfl, applyDefaultColorsAux_labels type data.labels.length data.datasets 0,
   applyDefaultColorsAux_data type data.labels.length data.datasets 0,
   applyDefaultColorsAux_borderWidth type data.labels.length data.datasets 0⟩

theorem watermarkSourceOf_cases (o : ChartOptions) :
    (∀ d, o.backgroundDescription = some d → d ≠ [] →
        watermarkSourceOf o = .fromBackgroundDescription d) ∧
    (∀ p, watermarkSourceOf o = .fromWatermarkPromptModelCall p →
        (o.backgroundDescription = none ∨ o.backgroundDescription = some []) ∧
        o.watermarkPrompt = some p ∧ p ≠ []) := by
  constructor
  · intro d hd hne
    unfold watermarkSourceOf
    rw [hd]
    simp [truthyStrOpt, hne]
  · intro p hp
    unfold watermarkSourceOf at hp
    cases hbg : o.backgroundDescription with
    | some d =>
      rw [hbg] at hp
      by_cases hne : d = []
      · subst hne
        cases hwp : o.watermarkPrompt with
        | none =>
          rw [hwp] at hp
          simp [truthyStrOpt] at hp
        | some p2 =>
          rw [hwp] at hp
          by_cases hp2 : p2 = []
          · subst hp2
            simp [truthyStrOpt] at hp
          · simp [truthyStrOpt, hp2] at hp
            exact ⟨Or.inr rfl, congrArg some hp, hp ▸ hp2⟩
      · simp [truthyStrOpt, hne] at hp
    | none =>
      rw [hbg] at hp
      cases hwp : o.watermarkPrompt with
      | none =>
        rw [hwp] at hp
        simp [truthyStrOpt] at hp
      | some p2 =>
        rw [hwp] at hp
        by_cases hp2 : p2 = []
        · subst hp2
          simp [truthyStrOpt] at hp
        · simp [truthyStrOpt, hp2] at hp
          exact ⟨Or.inl rfl, congrArg some hp, hp ▸ hp2⟩

theorem applyBackgroundOptions_watermarkPrompt (o : ChartOptions) (hasOllamaClient : Bool)
    (backgroundGen : Option (List Char)) :
    (applyBackgroundOptions o hasOllamaClient backgroundGen).watermarkPrompt
      = o.watermarkPrompt := by
  unfold applyBackgroundOptions
  split
  · cases backgroundGen <;> rfl
  · rfl

/-- C5: in generateFromData, after the background stage has possibly stored
a description into the options, a present (truthy) background description is
always the watermark text source, and the model-call watermark path is taken
only when no such description is present and the watermark prompt is truthy. -/
theorem c5_watermark_source (options : ChartOptions) (hasOllamaClient : Bool)
    (backgroundGen : Option (List Char)) :
    (∀ d, (applyBackgroundOptions options hasOllamaClient backgroundGen).backgroundDescription
            = some d → d ≠ [] →
        generateFromDataWatermarkSource options hasOllamaClient backgroundGen
          = .fromBackgroundDescription d) ∧
    (∀ p, generateFromDataWatermarkSource options hasOllamaClient backgroundGen
            = .fromWatermarkPromptModelCall p →
        ((applyBackgroundOptions options hasOllamaClient backgroundGen).backgroundDescription = none ∨
         (applyBackgroundOptions options hasOllamaClient backgroundGen).backgroundDescription
           = some []) ∧
        options.watermarkPrompt = some p ∧ p ≠ []) := by
  have h := watermarkSourceOf_cases (applyBackgroundOptions options hasOllamaClient backgroundGen)
  refine ⟨fun d hd hne => h.1 d hd hne, fun p hp => ?_⟩
  have h2 := h.2 p hp
  refine ⟨h2.1, ?_, h2.2.2⟩
  rw [← applyBackgroundOptions_watermarkPrompt options hasOllamaClient backgroundGen]
  exact h2.2.1

theorem c5_watermark_source_witness :
    generateFromDataWatermarkSource
      { type := jstr ("bar".data), title := jstr [], watermarkPrompt := some ("sales data".data),
        backgroundImagePrompt := none, backgroundColor := none,
        backgroundDescription := some ("blue gradient".data) } true none
      = .fromBackgroundDescription ("blue gradient".data) :=
  (c5_watermark_source _ _ _).1 ("blue gradient".data) (by decide) (by decide)

theorem trimHistory_head (h : List ChatMessage) (hne : h ≠ []) :
    (trimHistory h).head? = h.head? := by
  unfold trimHistory
  split
  · cases h with
    | nil => simp at hne
    | cons a t => simp
  · rfl

theorem trimHistory_length (h : List ChatMessage) :
    (trimHistory h).length = if 21 < h.length then 21 else h.length := by
  unfold trimHistory
  split
  · rename_i hlen
    simp only [List.length_append, List.length_take, List.length_drop]
    omega
  · rename_i hlen
    simp [hlen]

/-- The invariant the specification states for the conversation history:
first element pinned as the system turn, length capped at twenty-one. -/
def historyInvariant (systemPrompt : List Char) (st : AgentState) : Prop :=
  st.conversationHistory.head? = some { role := Role.system, content := systemPrompt } ∧
  st.conversationHistory.length ≤ 21

instance (systemPrompt : List Char) (st : AgentState) :
    Decidable (historyInvariant systemPrompt st) :=
  inferInstanceAs (Decidable
    (st.conversationHistory.head? = some { role := Role.system, content := systemPrompt } ∧
     st.conversationHistory.length ≤ 21))

/-- A run of ten successful chat turns from a fresh agent (history then
holds exactly twenty-one entries) followed by one turn whose model call
fails. -/
def c7FailState : AgentState :=
  (agentChat
    ((List.range 10).foldl (fun st _ => (agentChat st ("m".data) (some ("r".data))).1)
      (initialAgentState ("s".data)))
    ("m".data) none).1

/-- C7 counterexample: after a chat turn whose model call fails, the
history of this concrete run holds twenty-two entries, exceeding the cap of
twenty-one the claim asserts for every chat turn. -/
theorem c7_counterexample :
    c7FailState.conversationHistory.length = 22 ∧
    ¬ c7FailState.conversationHistory.length ≤ 21 := by decide

/-- C7 amended: the initial state satisfies the invariant (system turn
pinned first, at most twenty-one entries); from any state with the system
turn pinned first — including the over-cap states a failed model call
leaves behind — every successful chat turn and every clearHistory call
re-establish the invariant, because trimHistory caps a history of any
length at twenty-one entries; a chat turn whose model call fails keeps
the system turn first but grows the history by exactly one entry (the
user turn, appended before the call, with trimming run only after a
successful call). -/
theorem c7_amended_history_cap (systemPrompt : List Char) :
    historyInvariant systemPrompt (initialAgentState systemPrompt) ∧
    (∀ st userMessage resp,
        st.conversationHistory.head? = some { role := Role.system, content := systemPrompt } →
        historyInvariant systemPrompt (agentChat st userMessage (some resp)).1) ∧
    (∀ st,
        st.conversationHistory.head? = some { role := Role.system, content := systemPrompt } →
        historyInvariant systemPrompt (clearHistory st)) ∧
    (∀ st userMessage,
        st.conversationHistory.head? = some { role := Role.system, content := systemPrompt } →
        (agentChat st userMessage none).1.conversationHistory.head?
            = some { role := Role.system, content := systemPrompt } ∧
        (agentChat st userMessage none).1.conversationHistory.length
            = st.conversationHistory.length + 1) := by
  refine ⟨⟨rfl, by simp [initialAgentState]⟩, ?_, ?_, ?_⟩
  · rintro st userMessage resp hhd
    have hne : st.conversationHistory ≠ [] := by
      intro hnil
      rw [hnil] at hhd
      simp at hhd
    constructor
    · show (trimHistory _).head? = _
      rw [trimHistory_head]
      · cases hcase : st.conversationHistory with
        | nil => exact absurd hcase hne
        | cons a t =>
          rw [hcase] at hhd
          simp at hhd
          simp [hhd]
      · intro hnil
        simp at hnil
    · show (trimHistory _).length ≤ 21
      rw [trimHistory_length]
      split <;> omega
  · rintro st hhd
    constructor
    · show (st.conversationHistory.take 1).head? = _
      cases hcase : st.conversationHistory with
      | nil =>
        rw [hcase] at hhd
        simp at hhd
      | cons a t =>
        rw [hcase] at hhd
        simp at hhd
        simp [hhd]
    · show (st.conversationHistory.take 1).length ≤ 21
      simp only [List.length_take]
      omega
  · rintro st userMessage hhd
    constructor
    · show (st.conversationHistory ++ _).head? = _
      cases hcase : st.conversationHistory with
      | nil =>
        rw [hcase] at hhd
        simp at hhd
      | cons a t =>
        rw [hcase] at hhd
        simp at hhd
        simp [hhd]
    · show (st.conversationHistory ++ _).length = st.conversationHistory.length + 1
      simp

theorem c7_amended_history_cap_witness :
    historyInvariant ("s".data)
      (agentChat c7FailState ("m".data) (some ("r".data))).1 :=
  (c7_amended_history_cap ("s".data)).2.1 c7FailState ("m".data) ("r".data) (by decide)

def c8Description : List Char := "gradient grid".data

/-- C8 counterexample: the description "gradient grid" contains the grid
keyword, yet the synthesizer selects the gradient procedure (with the
default stops), not the grid-pattern procedure, because the gradient test
runs first. -/
theorem c8_counterexample :
    containsSub c8Description ("grid".data) = true ∧
    generateBackgroundKind c8Description ≠ BackgroundKind.patternBackground ∧
    generateBackgroundKind c8Description
      = BackgroundKind.gradientBackground ("rgba(255, 255, 255, 0.95)".data)
          ("rgba(248, 250, 252, 0.95)".data) := by decide

/-- C8 amended: routing is a deterministic function of the description with
gradient taking precedence: containing "gradient" always selects the
gradient procedure with the keyword-table stops; containing "grid" or
"pattern" (and not "gradient") always the grid-pattern procedure; containing
none of these keywords always the solid tint with the keyword-table color;
the three concrete example descriptions route as the claim states. -/
theorem c8_amended_routing (description : List Char) :
    (containsSub description ("gradient".data) = true →
        generateBackgroundKind description
          = BackgroundKind.gradientBackground (gradientStopsFor description).1
              (gradientStopsFor description).2) ∧
    (containsSub description ("gradient".data) = false →
        (containsSub description ("grid".data) || containsSub description ("pattern".data))
            = true →
        generateBackgroundKind description = BackgroundKind.patternBackground) ∧
    (containsSub description ("gradient".data) = false →
        (containsSub description ("grid".data) || containsSub description ("pattern".data))
            = false →
        generateBackgroundKind description = BackgroundKind.colorBackground (colorFor description)) ∧
    generateBackgroundKind ("blue gradient".data)
      = BackgroundKind.gradientBackground ("rgba(240, 248, 255, 0.8)".data)
          ("rgba(230, 240, 255, 0.8)".data) ∧
    generateBackgroundKind ("white grid".data) = BackgroundKind.patternBackground ∧
    generateBackgroundKind ("forest green".data)
      = BackgroundKind.colorBackground ("rgba(240, 255, 240, 0.9)".data) := by
  refine ⟨?_, ?_, ?_, by decide, by decide, by decide⟩
  · intro hg
    simp [generateBackgroundKind, hg]
  · intro hg hgp
    simp [generateBackgroundKind, hg, hgp]
  · intro hg hgp
    simp only [Bool.or_eq_false_iff] at hgp
    simp [generateBackgroundKind, hg, hgp.1, hgp.2]

theorem c8_amended_routing_witness :
    generateBackgroundKind ("white grid".data) = BackgroundKind.patternBackground :=
  (c8_amended_routing ("white grid".data)).2.1 (by decide) (by decide)

def c2Text : List Char :=
  "``` bad ``` \x7b\"labels\":[\"a\"],\"datasets\":[\x7b\"label\":\"d\",\"data\":[1]\x7d]\x7d".data

def c2Spec : ParsedChart :=
  { data := { labels := [jstr ['a']], datasets := [{ label := jstr ['d'], data := [jnum 1] }] },
    options := { type := jstr ("bar".data), title := jstr [] } }

/-- C2 counterexample: on this text the generic fenced block matches first
but its content does not parse, so the code returns null without trying the
later brace pattern, although that pattern yields parseable text from which
the specification-described extractor produces a full specification. -/
theorem c2_counterexample :
    parseChartDataFromText c2Text = none ∧
    extractorSpecReading c2Text = some c2Spec := by decide

/-- Extractor reading after the amendment: the four patterns are tried in
order and the first pattern that matches is committed to; the extraction
then succeeds only if that single candidate text parses, and a parse
failure fails the whole extraction without trying later patterns. -/
def extractorFirstMatchReading (text : List Char) : Option ParsedChart :=
  let firstMatch : Option (List Char) :=
    match matchFenced text ticksJsonPat with
    | some (g, m0) => some (jsonStrOfFence g m0)
    | none =>
      match matchFenced text ticksPat with
      | some (g, m0) => some (jsonStrOfFence g m0)
      | none =>
        match matchLabelsDatasets text with
        | some m0 => some m0
        | none => matchAnyBrace text
  match firstMatch with
  | none => none
  | some s =>
    match jsonParse s with
    | none => none
    | some parsed => buildChartSpec text parsed

/-- C2 amended: the extractor tries the four patterns in order and commits
to the first pattern that matches; the committed text must parse as a
structured object, otherwise extraction fails without attempting the
remaining patterns. -/
theorem c2_amended_first_match (text : List Char) :
    parseChartDataFromText text = extractorFirstMatchReading text := by
  unfold parseChartDataFromText extractorFirstMatchReading
  cases matchFenced text ticksJsonPat with
  | some gm => rcases gm with ⟨g, m0⟩; rfl
  | none =>
    cases matchFenced text ticksPat with
    | some gm => rcases gm with ⟨g, m0⟩; rfl
    | none =>
      cases matchLabelsDatasets text with
      | some m0 => rfl
      | none =>
        cases matchAnyBrace text with
        | some m0 => rfl
        | none => rfl

def c4Text : List Char :=
  "\x7b\"labels\":[\"\\u0060\\u0060\\u0060 \\u0060\\u0060\\u0060\"],\"datasets\":[\x7b\"label\":\"x\",\"data\":[1]\x7d]\x7d".data

def c4Spec : ParsedChart :=
  { data := { labels := [jstr ("\x60\x60\x60 \x60\x60\x60".data)],
              datasets := [{ label := jstr ['x'], data := [jnum 1] }] },
    options := { type := jstr ("bar".data), title := jstr [] } }

/-- C4 counterexample: this text (backticks hidden behind unicode escapes so
that the brace pattern extracts it) parses to a specification whose label
string contains two fenced-block delimiters; re-parsing its JSON
serialization commits to the generic fenced-block pattern, whose candidate
text is not JSON, so the second parse returns null instead of the same
specification. -/
theorem c4_counterexample :
    parseChartDataFromText c4Text = some c4Spec ∧
    parseChartDataFromText (serializeSpec c4Spec) = none := by decide

/-! Occurrence lemmas for the leftmost-match searches. -/

theorem isPrefixOf_append_self (p r : List Char) : p.isPrefixOf (p ++ r) = true := by
  rw [List.isPrefixOf_iff_prefix]
  exact List.prefix_append p r

theorem isPrefixOf_of_prefix_pat {p q l : List Char} (hpq : p <+: q)
    (h : q.isPrefixOf l = true) : p.isPrefixOf l = true := by
  rw [List.isPrefixOf_iff_prefix] at h ⊢
  exact hpq.trans h

theorem occursAt_of_append (pre pat suf : List Char) :
    occursAt (pre ++ pat ++ suf) pat pre.length = true := by
  unfold occursAt
  rw [List.append_assoc, List.drop_left]
  exact isPrefixOf_append_self pat suf

theorem occursAt_pat_prefix {t pat1 pat2 : List Char} {i : Nat} (hp : pat2 <+: pat1)
    (h : occursAt t pat1 i = true) : occursAt t pat2 i = true :=
  isPrefixOf_of_prefix_pat hp h

theorem firstOcc_sound : ∀ (t pat : List Char) (i : Nat),
    firstOcc t pat = some i → occursAt t pat i = true := by
  intro t
  induction t with
  | nil =>
    intro pat i h
    unfold firstOcc at h
    split at h
    · rename_i hp
      injection h with h
      subst h
      unfold occursAt
      simpa using hp
    · simp at h
  | cons c ts ih =>
    intro pat i h
    unfold firstOcc at h
    split at h
    · rename_i hp
      injection h with h
      subst h
      unfold occursAt
      simpa using hp
    · simp only [Option.map_eq_some'] at h
      obtain ⟨j, hj, hj1⟩ := h
      subst hj1
      have hocc := ih pat j hj
      unfold occursAt at hocc ⊢
      simpa using hocc

theorem firstOcc_le : ∀ (t pat : List Char) (k : Nat),
    occursAt t pat k = true → ∃ i, firstOcc t pat = some i ∧ i ≤ k := by
  intro t
  induction t with
  | nil =>
    intro pat k h
    unfold occursAt at h
    rw [List.drop_nil] at h
    refine ⟨0, ?_, Nat.zero_le k⟩
    unfold firstOcc
    rw [if_pos h]
  | cons c ts ih =>
    intro pat k h
    by_cases hp : pat.isPrefixOf (c :: ts) = true
    · exact ⟨0, by unfold firstOcc; rw [if_pos hp], Nat.zero_le k⟩
    · cases k with
      | zero =>
        unfold occursAt at h
        simp only [List.drop_zero] at h
        exact absurd h hp
      | succ k2 =>
        unfold occursAt at h
        rw [List.drop_succ_cons] at h
        obtain ⟨j, hj, hjk⟩ := ih pat k2 h
        refine ⟨j + 1, ?_, Nat.succ_le_succ hjk⟩
        unfold firstOcc
        rw [if_neg hp]
        show (firstOcc ts pat).map (· + 1) = some (j + 1)
        rw [hj]
        rfl

theorem firstOccFrom_sound (t pat : List Char) (s i : Nat)
    (h : firstOccFrom t pat s = some i) : occursAt t pat i = true ∧ s ≤ i := by
  unfold firstOccFrom at h
  simp only [Option.map_eq_some'] at h
  obtain ⟨j, hj, hji⟩ := h
  subst hji
  have hocc := firstOcc_sound _ _ _ hj
  unfold occursAt at hocc ⊢
  rw [List.drop_drop] at hocc
  rw [Nat.add_comm j s]
  exact ⟨hocc, by omega⟩

theorem firstOccFrom_exists_le (t pat : List Char) (s k : Nat)
    (hocc : occursAt t pat k = true) (hsk : s ≤ k) :
    ∃ i, firstOccFrom t pat s = some i ∧ s ≤ i ∧ i ≤ k := by
  have h2 : occursAt (t.drop s) pat (k - s) = true := by
    unfold occursAt at hocc ⊢
    rw [List.drop_drop]
    have heq : s + (k - s) = k := by omega
    rw [heq]
    exact hocc
  obtain ⟨j, hj, hjk⟩ := firstOcc_le _ _ _ h2
  refine ⟨j + s, ?_, by omega, by omega⟩
  unfold firstOccFrom
  rw [hj]
  rfl

theorem containsSub_of_occursAt (t pat : List Char) (k : Nat)
    (h : occursAt t pat k = true) : containsSub t pat = true := by
  obtain ⟨i, hi, _⟩ := firstOcc_le t pat k h
  unfold containsSub
  rw [hi]
  rfl

theorem matchFenced_none_of_no_ticks (t opn : List Char) (hpre : ticksPat <+: opn)
    (h : containsSub t ticksPat = false) : matchFenced t opn = none := by
  unfold matchFenced
  cases hf : firstOcc t opn with
  | none => rfl
  | some i =>
    exfalso
    have h1 := firstOcc_sound t opn i hf
    have h2 := occursAt_pat_prefix hpre h1
    have h3 := containsSub_of_occursAt t ticksPat i h2
    rw [h] at h3
    cases h3

theorem lastIdxOf_append_last (xs : List Char) (c : Char) :
    lastIdxOf (xs ++ [c]) c = some xs.length := by
  induction xs with
  | nil =>
    show lastIdxOf [c] c = some 0
    unfold lastIdxOf
    simp [lastIdxOf]
  | cons x xs ih =>
    show lastIdxOf (x :: (xs ++ [c])) c = some (xs.length + 1)
    unfold lastIdxOf
    rw [ih]

theorem listSlice_all (t : List Char) : listSlice t 0 t.length = t := by
  unfold listSlice
  simp

/-! Shape of the serialization of an extracted specification, and the
resulting behaviour of the extraction patterns on it. -/

def dsArrJson (p : ParsedChart) : Json :=
  arrOfList (p.data.datasets.map (fun d =>
    jobjCons ("label".data) d.label (jobjCons ("data".data) (arrOfList d.data) jobjNil)))

def serHeadChunk (p : ParsedChart) : List Char :=
  lbrace :: '"' :: ("type".data) ++ '"' :: ':' :: serVal p.options.type
    ++ ',' :: '"' :: ("title".data) ++ '"' :: ':' :: serVal p.options.title ++ [',']

def serLabelsChunk (p : ParsedChart) : List Char :=
  ':' :: serVal (arrOfList p.data.labels) ++ [',']

def serTailChunk (p : ParsedChart) : List Char :=
  ':' :: serVal (dsArrJson p)

theorem serializeSpec_shape (p : ParsedChart) :
    serializeSpec p
      = serHeadChunk p ++ quotedLabelsPat ++ serLabelsChunk p ++ quotedDatasetsPat
          ++ serTailChunk p ++ [rbrace] := by
  have e1 : escapeChars ("type".data) = "type".data := rfl
  have e2 : escapeChars ("title".data) = "title".data := rfl
  have e3 : escapeChars ("labels".data) = "labels".data := rfl
  have e4 : escapeChars ("datasets".data) = "datasets".data := rfl
  unfold serializeSpec specToJson serVal serHeadChunk serLabelsChunk serTailChunk dsArrJson
    quotedLabelsPat quotedDatasetsPat
  simp only [serJ, e1, e2, e3, e4, List.cons_append, List.append_assoc, List.nil_append,
    List.append_nil]
  rfl

theorem serHeadChunk_pos (p : ParsedChart) : 1 ≤ (serHeadChunk p).length := by
  unfold serHeadChunk
  simp

theorem firstIdx_lbrace_serializeSpec (p : ParsedChart) :
    firstIdxOf (serializeSpec p) lbrace = some 0 := by
  rw [serializeSpec_shape]
  unfold serHeadChunk firstIdxOf firstOcc
  simp only [List.cons_append]
  rw [if_pos (by simp [List.isPrefixOf])]

theorem occ_labels_serializeSpec (p : ParsedChart) :
    occursAt (serializeSpec p) quotedLabelsPat (serHeadChunk p).length = true := by
  rw [serializeSpec_shape]
  have hre :
      serHeadChunk p ++ quotedLabelsPat ++ serLabelsChunk p ++ quotedDatasetsPat
          ++ serTailChunk p ++ [rbrace]
        = serHeadChunk p ++ quotedLabelsPat
            ++ (serLabelsChunk p ++ quotedDatasetsPat ++ serTailChunk p ++ [rbrace]) := by
    simp [List.append_assoc]
  rw [hre]
  exact occursAt_of_append _ _ _

theorem occ_datasets_serializeSpec (p : ParsedChart) :
    occursAt (serializeSpec p) quotedDatasetsPat
      (serHeadChunk p ++ quotedLabelsPat ++ serLabelsChunk p).length = true := by
  rw [serializeSpec_shape]
  have hre :
      serHeadChunk p ++ quotedLabelsPat ++ serLabelsChunk p ++ quotedDatasetsPat
          ++ serTailChunk p ++ [rbrace]
        = (serHeadChunk p ++ quotedLabelsPat ++ serLabelsChunk p) ++ quotedDatasetsPat
            ++ (serTailChunk p ++ [rbrace]) := by
    simp [List.append_assoc]
  rw [hre]
  exact occursAt_of_append _ _ _

theorem last_rbrace_serializeSpec (p : ParsedChart) :
    lastIdxOf (serializeSpec p) rbrace
      = some (serHeadChunk p ++ quotedLabelsPat ++ serLabelsChunk p ++ quotedDatasetsPat
          ++ serTailChunk p).length := by
  rw [serializeSpec_shape]
  have hre :
      serHeadChunk p ++ quotedLabelsPat ++ serLabelsChunk p ++ quotedDatasetsPat
          ++ serTailChunk p ++ [rbrace]
        = (serHeadChunk p ++ quotedLabelsPat ++ serLabelsChunk p ++ quotedDatasetsPat
            ++ serTailChunk p) ++ [rbrace] := by
    simp [List.append_assoc]
  rw [hre]
  exact lastIdxOf_append_last _ _

theorem serializeSpec_length (p : ParsedChart) :
    (serializeSpec p).length
      = (serHeadChunk p ++ quotedLabelsPat ++ serLabelsChunk p ++ quotedDatasetsPat
          ++ serTailChunk p).length + 1 := by
  rw [serializeSpec_shape]
  simp only [List.length_append, List.length_singleton]

theorem matchLabelsDatasets_serializeSpec (p : ParsedChart) :
    matchLabelsDatasets (serializeSpec p) = some (serializeSpec p) := by
  have hql : quotedLabelsPat.length = 8 := rfl
  have hqd : quotedDatasetsPat.length = 10 := rfl
  obtain ⟨p1, hp1, hp1ge, hp1le⟩ :=
    firstOccFrom_exists_le (serializeSpec p) quotedLabelsPat 1 (serHeadChunk p).length
      (occ_labels_serializeSpec p) (serHeadChunk_pos p)
  obtain ⟨p2, hp2, hp2ge, hp2le⟩ :=
    firstOccFrom_exists_le (serializeSpec p) quotedDatasetsPat (p1 + quotedLabelsPat.length)
      (serHeadChunk p ++ quotedLabelsPat ++ serLabelsChunk p).length
      (occ_datasets_serializeSpec p)
      (by simp only [List.length_append, hql]; omega)
  have hcond : p2 + quotedDatasetsPat.length
      ≤ (serHeadChunk p ++ quotedLabelsPat ++ serLabelsChunk p ++ quotedDatasetsPat
          ++ serTailChunk p).length := by
    simp only [List.length_append, hqd] at hp2le ⊢
    omega
  have hfinal :
      listSlice (serializeSpec p) 0
        ((serHeadChunk p ++ quotedLabelsPat ++ serLabelsChunk p ++ quotedDatasetsPat
            ++ serTailChunk p).length + 1)
        = serializeSpec p := by
    rw [← serializeSpec_length p]
    exact listSlice_all _
  simp only [matchLabelsDatasets, firstIdx_lbrace_serializeSpec, Nat.zero_add, hp1, hp2,
    last_rbrace_serializeSpec, if_pos hcond, hfinal]

/-! Round trip of the serializer through the value reader. -/

theorem natDigitsAux_acc (fuel : Nat) : ∀ n acc, n < fuel →
    natDigitsAux fuel n acc = natDigitsAux fuel n [] ++ acc := by
  induction fuel with
  | zero => intro n acc h; omega
  | succ f ih =>
    intro n acc h
    unfold natDigitsAux
    by_cases h10 : n < 10
    · simp [h10]
    · have hdiv : n / 10 < n := Nat.div_lt_self (by omega) (by omega)
      simp only [if_neg h10]
      rw [ih (n / 10) _ (by omega), ih (n / 10) [digitChar (n % 10)] (by omega)]
      simp

theorem natDigitsAux_fuel (fuel1 : Nat) : ∀ fuel2 n acc, n < fuel1 → n < fuel2 →
    natDigitsAux fuel1 n acc = natDigitsAux fuel2 n acc := by
  induction fuel1 with
  | zero => intro fuel2 n acc h1 h2; omega
  | succ f1 ih =>
    intro fuel2 n acc h1 h2
    cases fuel2 with
    | zero => omega
    | succ f2 =>
      unfold natDigitsAux
      by_cases h10 : n < 10
      · simp [h10]
      · have hdiv : n / 10 < n := Nat.div_lt_self (by omega) (by omega)
        simp only [if_neg h10]
        exact ih f2 (n / 10) _ (by omega) (by omega)

theorem natDigits_eq (n : Nat) :
    natDigits n = if n < 10 then [digitChar n] else natDigits (n / 10) ++ [digitChar (n % 10)] := by
  unfold natDigits
  by_cases h10 : n < 10
  · simp only [if_pos h10]
    unfold natDigitsAux
    simp [h10]
  · have hdiv : n / 10 < n := Nat.div_lt_self (by omega) (by omega)
    simp only [if_neg h10]
    show natDigitsAux (n + 1) n [] = natDigitsAux (n / 10 + 1) (n / 10) [] ++ [digitChar (n % 10)]
    have hstep : natDigitsAux (n + 1) n [] = natDigitsAux n (n / 10) [digitChar (n % 10)] := by
      conv_lhs => rw [natDigitsAux]
      simp [h10]
    rw [hstep, natDigitsAux_acc n (n / 10) [digitChar (n % 10)] (by omega),
      natDigitsAux_fuel n (n / 10 + 1) (n / 10) [] (by omega) (by omega)]

theorem digitChar_isDigit (d : Nat) (h : d < 10) : isDigitCh (digitChar d) = true := by
  interval_cases d <;> decide

theorem digitVal_digitChar (d : Nat) (h : d < 10) : digitVal (digitChar d) = d := by
  interval_cases d <;> decide

theorem natDigits_digits (n : Nat) : ∀ c ∈ natDigits n, isDigitCh c = true := by
  induction n using Nat.strong_induction_on with
  | _ n ih =>
    rw [natDigits_eq]
    by_cases h10 : n < 10
    · simp only [if_pos h10]
      intro c hc
      rw [List.mem_singleton] at hc
      subst hc
      exact digitChar_isDigit n h10
    · simp only [if_neg h10]
      intro c hc
      rw [List.mem_append] at hc
      cases hc with
      | inl hm => exact ih (n / 10) (Nat.div_lt_self (by omega) (by omega)) c hm
      | inr hm =>
        rw [List.mem_singleton] at hm
        subst hm
        exact digitChar_isDigit _ (Nat.mod_lt n (by omega))

theorem natDigits_head (n : Nat) :
    ∃ d ds, natDigits n = d :: ds ∧ isDigitCh d = true := by
  cases hnd : natDigits n with
  | nil =>
    exfalso
    rw [natDigits_eq] at hnd
    split at hnd
    · cases hnd
    · exact absurd hnd (by simp)
  | cons d ds =>
    refine ⟨d, ds, rfl, ?_⟩
    exact natDigits_digits n d (by rw [hnd]; exact List.mem_cons_self d ds)

theorem foldl_digits_natDigits (n : Nat) :
    (natDigits n).foldl (fun acc c => 10 * acc + digitVal c) 0 = n := by
  induction n using Nat.strong_induction_on with
  | _ n ih =>
    rw [natDigits_eq]
    by_cases h10 : n < 10
    · simp only [if_pos h10, List.foldl_cons, List.foldl_nil]
      rw [digitVal_digitChar n h10]
      omega
    · simp only [if_neg h10, List.foldl_append, List.foldl_cons, List.foldl_nil]
      rw [ih (n / 10) (Nat.div_lt_self (by omega) (by omega))]
      rw [digitVal_digitChar _ (Nat.mod_lt n (by omega))]
      omega

theorem takeWhile_dropWhile_append_all {p : Char → Bool} (xs ys : List Char)
    (hall : ∀ c ∈ xs, p c = true)
    (hys : ys = [] ∨ ∃ c cs, ys = c :: cs ∧ p c = false) :
    (xs ++ ys).takeWhile p = xs ∧ (xs ++ ys).dropWhile p = ys := by
  induction xs with
  | nil =>
    simp only [List.nil_append]
    rcases hys with h | ⟨c, cs, hcons, hc⟩
    · subst h; simp
    · subst hcons
      simp [List.takeWhile_cons, List.dropWhile_cons, hc]
  | cons x xs ih =>
    have hx : p x = true := hall x (List.mem_cons_self x xs)
    have ih2 := ih (fun c hc => hall c (List.mem_cons_of_mem x hc))
    simp only [List.cons_append, List.takeWhile_cons, List.dropWhile_cons, hx, if_true]
    exact ⟨by rw [ih2.1], by rw [ih2.2]⟩

/-- The character after a serialized number may not be a digit. -/
def restOkNum : List Char → Prop
  | [] => True
  | c :: _ => isDigitCh c = false

theorem readNatChars_natDigits (n : Nat) (rest : List Char) (hrest : restOkNum rest) :
    readNatChars (natDigits n ++ rest) = (n, rest) := by
  have hys : rest = [] ∨ ∃ c cs, rest = c :: cs ∧ isDigitCh c = false := by
    cases rest with
    | nil => exact Or.inl rfl
    | cons c cs => exact Or.inr ⟨c, cs, rfl, hrest⟩
  have hsplit := takeWhile_dropWhile_append_all (p := isDigitCh) (natDigits n) rest
    (natDigits_digits n) hys
  unfold readNatChars
  rw [hsplit.1, hsplit.2, foldl_digits_natDigits]

theorem parseStrBody_escape (s : List Char) : ∀ rest,
    parseStrBody (escapeChars s ++ '"' :: rest) = some (s, rest) := by
  induction s with
  | nil =>
    intro rest
    show parseStrBody ('"' :: rest) = some ([], rest)
    unfold parseStrBody
    simp
  | cons c cs ih =>
    intro rest
    show parseStrBody ((escChar c ++ escapeChars cs) ++ '"' :: rest) = some (c :: cs, rest)
    rw [List.append_assoc]
    unfold escChar
    split_ifs with h1 h2 h3 h4 h5
    · subst h1
      unfold parseStrBody
      simp [ih]
    · subst h2
      unfold parseStrBody
      simp [ih]
    · subst h3
      unfold parseStrBody
      simp [ih]
    · subst h4
      unfold parseStrBody
      simp [ih]
    · subst h5
      unfold parseStrBody
      simp [ih]
    · show parseStrBody (c :: (escapeChars cs ++ '"' :: rest)) = some (c :: cs, rest)
      unfold parseStrBody
      simp [h1, h2, ih]

/-- Object-chain recogniser (tail shape of a well-formed object). -/
def isObjJ : Json → Bool
  | jobjNil => true
  | jobjCons _ _ _ => true
  | _ => false

/-- Well-formed values: array and object chains continue with chain
constructors (the only shapes the reader produces). -/
def wfJson : Json → Bool
  | jarrCons h t => wfJson h && isJsArray t && wfJson t
  | jobjCons _ v t => wfJson v && isObjJ t && wfJson t
  | _ => true

/-- Fuel needed by the reader on a serialized value. -/
def fuelFor : Json → Nat
  | jarrCons h t => fuelFor h + fuelFor t + 2
  | jobjCons _ v t => fuelFor v + fuelFor t + 2
  | _ => 1

theorem fuelFor_pos (j : Json) : 1 ≤ fuelFor j := by
  cases j <;> simp only [fuelFor] <;> omega

theorem skipWsJson_not_ws (c : Char) (cs : List Char) (h : isWsJson c = false) :
    skipWsJson (c :: cs) = c :: cs := by
  unfold skipWsJson
  simp [h]

theorem isDigitCh_facts (c : Char) (h : isDigitCh c = true) :
    isWsJson c = false ∧ c ≠ 'n' ∧ c ≠ 't' ∧ c ≠ 'f' ∧ c ≠ '"' ∧ c ≠ '-' ∧ c ≠ '[' ∧
    c ≠ lbrace ∧ c ≠ ']' ∧ c ≠ rbrace ∧ c ≠ ',' := by
  refine ⟨?_, ?_, ?_, ?_, ?_, ?_, ?_, ?_, ?_, ?_, ?_⟩
  · cases hws : isWsJson c with
    | false => rfl
    | true =>
      exfalso
      unfold isWsJson at hws
      simp only [Bool.or_eq_true, decide_eq_true_eq] at hws
      have hc : c = ' ' ∨ c = '\t' ∨ c = '\n' ∨ c = '\r' ∨ c = Char.ofNat 11 ∨
          c = Char.ofNat 12 := by tauto
      rcases hc with h1 | h1 | h1 | h1 | h1 | h1 <;> (subst h1; exact absurd h (by decide))
  all_goals (rintro rfl; exact absurd h (by decide))

theorem serVal_head (j : Json) :
    ∃ c cs, serVal j = c :: cs ∧ isWsJson c = false ∧ c ≠ ']' ∧ c ≠ rbrace := by
  cases j with
  | jnull => exact ⟨'n', _, rfl, by decide, by decide, by decide⟩
  | jbool b =>
    cases b
    · exact ⟨'f', _, rfl, by decide, by decide, by decide⟩
    · exact ⟨'t', _, rfl, by decide, by decide, by decide⟩
  | jnum i =>
    show ∃ c cs, serInt i = c :: cs ∧ _
    unfold serInt
    by_cases hi : i < 0
    · rw [if_pos hi]
      exact ⟨'-', _, rfl, by decide, by decide, by decide⟩
    · rw [if_neg hi]
      obtain ⟨d, ds, hnd, hdig⟩ := natDigits_head i.natAbs
      obtain ⟨hws, _, _, _, _, _, _, _, hrb, hrbr, _⟩ := isDigitCh_facts d hdig
      exact ⟨d, ds, hnd, hws, hrb, hrbr⟩
  | jstr s => exact ⟨'"', _, rfl, by decide, by decide, by decide⟩
  | jarrNil => exact ⟨'[', _, rfl, by decide, by decide, by decide⟩
  | jarrCons h t => exact ⟨'[', _, rfl, by decide, by decide, by decide⟩
  | jobjNil => exact ⟨lbrace, _, rfl, by decide, by decide, by decide⟩
  | jobjCons k v t => exact ⟨lbrace, _, rfl, by decide, by decide, by decide⟩

theorem skipWsJson_serVal (j : Json) (rest : List Char) :
    skipWsJson (serVal j ++ rest) = serVal j ++ rest := by
  obtain ⟨c, cs, hsv, hws, _, _⟩ := serVal_head j
  rw [hsv, List.cons_append, skipWsJson_not_ws c _ hws]

theorem serArrTail_shape (t : Json) (ht : isJsArray t = true) :
    (t = jarrNil ∧ serJ .arrTail t = [']']) ∨
    (∃ h2 t2, t = jarrCons h2 t2 ∧ serJ .arrTail t = ',' :: (serVal h2 ++ serJ .arrTail t2)) := by
  cases t with
  | jarrNil => exact Or.inl ⟨rfl, rfl⟩
  | jarrCons h2 t2 => exact Or.inr ⟨h2, t2, rfl, rfl⟩
  | jnull => simp [isJsArray] at ht
  | jbool b => simp [isJsArray] at ht
  | jnum n => simp [isJsArray] at ht
  | jstr s => simp [isJsArray] at ht
  | jobjNil => simp [isJsArray] at ht
  | jobjCons k v t2 => simp [isJsArray] at ht

theorem serObjTail_shape (t : Json) (ht : isObjJ t = true) :
    (t = jobjNil ∧ serJ .objTail t = [rbrace]) ∨
    (∃ k2 v2 t2, t = jobjCons k2 v2 t2 ∧
      serJ .objTail t = ',' :: '"' :: (escapeChars k2 ++ '"' :: ':' :: (serVal v2 ++ serJ .objTail t2))) := by
  cases t with
  | jobjNil => exact Or.inl ⟨rfl, rfl⟩
  | jobjCons k2 v2 t2 =>
    refine Or.inr ⟨k2, v2, t2, rfl, ?_⟩
    show ',' :: '"' :: escapeChars k2 ++ '"' :: ':' :: serJ .top v2 ++ serJ .objTail t2 = _
    simp [serVal, List.append_assoc]
  | jnull => simp [isObjJ] at ht
  | jbool b => simp [isObjJ] at ht
  | jnum n => simp [isObjJ] at ht
  | jstr s => simp [isObjJ] at ht
  | jarrNil => simp [isObjJ] at ht
  | jarrCons h2 t2 => simp [isObjJ] at ht

theorem restOkNum_arrTail (t : Json) (rest : List Char) :
    restOkNum (serJ .arrTail t ++ rest) := by
  cases t
  case jarrCons h2 t2 => exact (by decide : isDigitCh ',' = false)
  all_goals exact (by decide : isDigitCh ']' = false)

theorem restOkNum_objTail (t : Json) (rest : List Char) :
    restOkNum (serJ .objTail t ++ rest) := by
  cases t
  case jobjCons k2 v2 t2 => exact (by decide : isDigitCh ',' = false)
  all_goals exact (by decide : isDigitCh rbrace = false)

theorem parseF_top_null (f : Nat) (rest : List Char) :
    parseF (f + 1) .top (serVal jnull ++ rest) = some (jnull, rest) := by
  show parseF (f + 1) .top ('n' :: 'u' :: 'l' :: 'l' :: rest) = some (jnull, rest)
  rw [parseF, skipWsJson_not_ws 'n' _ (by decide)]
  simp [List.isPrefixOf]

theorem parseF_top_bool (f : Nat) (b : Bool) (rest : List Char) :
    parseF (f + 1) .top (serVal (jbool b) ++ rest) = some (jbool b, rest) := by
  cases b
  · show parseF (f + 1) .top ('f' :: 'a' :: 'l' :: 's' :: 'e' :: rest) = some (jbool false, rest)
    rw [parseF, skipWsJson_not_ws 'f' _ (by decide)]
    simp [List.isPrefixOf]
  · show parseF (f + 1) .top ('t' :: 'r' :: 'u' :: 'e' :: rest) = some (jbool true, rest)
    rw [parseF, skipWsJson_not_ws 't' _ (by decide)]
    simp [List.isPrefixOf]

theorem parseF_top_num (f : Nat) (i : Int) (rest : List Char) (hrest : restOkNum rest) :
    parseF (f + 1) .top (serVal (jnum i) ++ rest) = some (jnum i, rest) := by
  obtain ⟨d, ds, hnd, hdig⟩ := natDigits_head i.natAbs
  obtain ⟨hws, hn, ht, hf2, hq, hm, hlb, hlbr, hrb, hrbr, hcm⟩ := isDigitCh_facts d hdig
  have hrn : readNatChars (d :: (ds ++ rest)) = (i.natAbs, rest) := by
    rw [← List.cons_append, ← hnd]
    exact readNatChars_natDigits i.natAbs rest hrest
  by_cases hi : i < 0
  · have hser : serVal (jnum i) ++ rest = '-' :: (natDigits i.natAbs ++ rest) := by
      show serInt i ++ rest = _
      unfold serInt
      rw [if_pos hi]
      rfl
    rw [hser, parseF, skipWsJson_not_ws '-' _ (by decide)]
    rw [hnd, List.cons_append]
    simp [hrn, hdig]
    rw [abs_of_nonpos (by omega)]
    omega
  · have hser : serVal (jnum i) ++ rest = d :: (ds ++ rest) := by
      show serInt i ++ rest = _
      unfold serInt
      rw [if_neg hi, hnd, List.cons_append]
    rw [hser, parseF, skipWsJson_not_ws d _ hws]
    simp [hn, ht, hf2, hq, hm, hlb, hlbr, hdig, hrn]
    omega

theorem parseF_top_str (f : Nat) (s : List Char) (rest : List Char) :
    parseF (f + 1) .top (serVal (jstr s) ++ rest) = some (jstr s, rest) := by
  have hform : serVal (jstr s) ++ rest = '"' :: (escapeChars s ++ '"' :: rest) := by
    show ('"' :: (escapeChars s ++ ['"'])) ++ rest = _
    simp [List.append_assoc]
  rw [hform, parseF, skipWsJson_not_ws '"' _ (by decide)]
  simp [parseStrBody_escape s rest]

theorem parseF_top_arrNil (f : Nat) (rest : List Char) :
    parseF (f + 1) .top (serVal jarrNil ++ rest) = some (jarrNil, rest) := by
  show parseF (f + 1) .top ('[' :: ']' :: rest) = some (jarrNil, rest)
  rw [parseF, skipWsJson_not_ws '[' _ (by decide)]
  simp [skipWsJson_not_ws ']' rest (by decide), (by decide : isDigitCh '[' = false)]

theorem parseF_top_objNil (f : Nat) (rest : List Char) :
    parseF (f + 1) .top (serVal jobjNil ++ rest) = some (jobjNil, rest) := by
  show parseF (f + 1) .top (lbrace :: rbrace :: rest) = some (jobjNil, rest)
  rw [parseF, skipWsJson_not_ws lbrace _ (by decide)]
  simp [skipWsJson_not_ws rbrace rest (by decide), (by decide : ¬ lbrace = 'n'),
    (by decide : ¬ lbrace = 't'), (by decide : ¬ lbrace = 'f'), (by decide : ¬ lbrace = '\"'),
    (by decide : ¬ lbrace = '-'), (by decide : isDigitCh lbrace = false),
    (by decide : ¬ lbrace = '[')]

theorem parseF_roundtrip : ∀ fuel : Nat,
    (∀ j rest, wfJson j = true → restOkNum rest → fuelFor j ≤ fuel →
        parseF fuel .top (serVal j ++ rest) = some (j, rest)) ∧
    (∀ h t rest, wfJson h = true → wfJson t = true → isJsArray t = true → restOkNum rest →
        fuelFor h + fuelFor t + 1 ≤ fuel →
        parseF fuel .elems (serVal h ++ serJ .arrTail t ++ rest) = some (jarrCons h t, rest)) ∧
    (∀ k v t rest, wfJson v = true → wfJson t = true → isObjJ t = true → restOkNum rest →
        fuelFor v + fuelFor t + 1 ≤ fuel →
        parseF fuel .members
            ('"' :: escapeChars k ++ '"' :: ':' :: serVal v ++ serJ .objTail t ++ rest)
          = some (jobjCons k v t, rest)) := by
  have hskq : ∀ X, skipWsJson ('"' :: X) = '"' :: X :=
    fun X => skipWsJson_not_ws '"' X (by decide)
  have hskColon : ∀ X, skipWsJson (':' :: X) = ':' :: X :=
    fun X => skipWsJson_not_ws ':' X (by decide)
  have hskComma : ∀ X, skipWsJson (',' :: X) = ',' :: X :=
    fun X => skipWsJson_not_ws ',' X (by decide)
  have hskRB : ∀ X, skipWsJson (']' :: X) = ']' :: X :=
    fun X => skipWsJson_not_ws ']' X (by decide)
  have hskRBr : ∀ X, skipWsJson (rbrace :: X) = rbrace :: X :=
    fun X => skipWsJson_not_ws rbrace X (by decide)
  intro fuel
  induction fuel with
  | zero =>
    refine ⟨?_, ?_, ?_⟩
    · intro j rest _ _ hf
      exact absurd hf (by have := fuelFor_pos j; omega)
    · intro h t rest _ _ _ _ hf
      exact absurd hf (by have := fuelFor_pos h; have := fuelFor_pos t; omega)
    · intro k v t rest _ _ _ _ hf
      exact absurd hf (by have := fuelFor_pos v; have := fuelFor_pos t; omega)
  | succ f ih =>
    obtain ⟨ihT, ihE, ihM⟩ := ih
    refine ⟨?_, ?_, ?_⟩
    · intro j rest hwf hrest hfuel
      cases j with
      | jnull => exact parseF_top_null f rest
      | jbool b => exact parseF_top_bool f b rest
      | jnum i => exact parseF_top_num f i rest hrest
      | jstr s => exact parseF_top_str f s rest
      | jarrNil => exact parseF_top_arrNil f rest
      | jobjNil => exact parseF_top_objNil f rest
      | jarrCons h t =>
        obtain ⟨hwh, hat, hwt⟩ : wfJson h = true ∧ isJsArray t = true ∧ wfJson t = true := by
          unfold wfJson at hwf
          simp only [Bool.and_eq_true] at hwf
          exact ⟨hwf.1.1, hwf.1.2, hwf.2⟩
        have hform : serVal (jarrCons h t) ++ rest
            = '[' :: (serVal h ++ serJ .arrTail t ++ rest) := by
          show ('[' :: (serVal h ++ serJ .arrTail t)) ++ rest = _
          simp [List.append_assoc]
        obtain ⟨c0, cs0, hsv, hws0, hne0, hnrb0⟩ := serVal_head h
        have hsk0 : ∀ X, skipWsJson (c0 :: X) = c0 :: X :=
          fun X => skipWsJson_not_ws c0 X hws0
        have hfe : fuelFor h + fuelFor t + 1 ≤ f := by
          have hp := fuelFor_pos h
          simp only [fuelFor] at hfuel
          omega
        have hE := ihE h t rest hwh hwt hat hrest hfe
        rw [hform, parseF, skipWsJson_not_ws '[' _ (by decide)]
        simp only [hsv, List.cons_append, List.append_assoc] at hE ⊢
        simp [hsk0, hne0, hE, (by decide : isDigitCh '[' = false)]
      | jobjCons k v t =>
        obtain ⟨hwv, hot, hwt⟩ : wfJson v = true ∧ isObjJ t = true ∧ wfJson t = true := by
          unfold wfJson at hwf
          simp only [Bool.and_eq_true] at hwf
          exact ⟨hwf.1.1, hwf.1.2, hwf.2⟩
        have hform : serVal (jobjCons k v t) ++ rest
            = lbrace :: ('"' :: escapeChars k ++ '"' :: ':' :: serVal v ++ serJ .objTail t ++ rest) := by
          show (lbrace :: '"' :: escapeChars k ++ '"' :: ':' :: serJ .top v ++ serJ .objTail t) ++ rest = _
          simp [serVal, List.append_assoc]
        have hfe : fuelFor v + fuelFor t + 1 ≤ f := by
          have hp := fuelFor_pos v
          simp only [fuelFor] at hfuel
          omega
        have hM := ihM k v t rest hwv hwt hot hrest hfe
        rw [hform, parseF, skipWsJson_not_ws lbrace _ (by decide)]
        simp only [List.cons_append, List.append_assoc] at hM ⊢
        simp [hskq, hM, (by decide : ¬ lbrace = 'n'), (by decide : ¬ lbrace = 't'),
          (by decide : ¬ lbrace = 'f'), (by decide : ¬ lbrace = '"'),
          (by decide : ¬ lbrace = '-'), (by decide : isDigitCh lbrace = false),
          (by decide : ¬ lbrace = '['), (by decide : ¬ ('"' : Char) = rbrace)]
    · intro h t rest hwh hwt hat hrest hfuel
      rw [parseF]
      have hT := ihT h (serJ .arrTail t ++ rest) hwh (restOkNum_arrTail t rest)
        (by have := fuelFor_pos t; omega)
      rcases serArrTail_shape t hat with ⟨htEq, hser⟩ | ⟨h2, t2, htEq, hser⟩
      · subst htEq
        simp only [hser, List.cons_append, List.append_assoc, List.nil_append] at hT ⊢
        simp [hT, hskRB, (by decide : ¬ (']' : Char) = ',')]
      · subst htEq
        obtain ⟨hwh2, hat2, hwt2⟩ : wfJson h2 = true ∧ isJsArray t2 = true ∧ wfJson t2 = true := by
          unfold wfJson at hwt
          simp only [Bool.and_eq_true] at hwt
          exact ⟨hwt.1.1, hwt.1.2, hwt.2⟩
        have hfe2 : fuelFor h2 + fuelFor t2 + 1 ≤ f := by
          have hp := fuelFor_pos h
          simp only [fuelFor] at hfuel
          omega
        have hE2 := ihE h2 t2 rest hwh2 hwt2 hat2 hrest hfe2
        simp only [hser, List.cons_append, List.append_assoc] at hT hE2 ⊢
        simp [hT, hE2, hskComma]
    · intro k v t rest hwv hwt hot hrest hfuel
      rw [parseF]
      have hstr := parseStrBody_escape k (':' :: serVal v ++ serJ .objTail t ++ rest)
      have hT := ihT v (serJ .objTail t ++ rest) hwv (restOkNum_objTail t rest)
        (by have := fuelFor_pos t; omega)
      rcases serObjTail_shape t hot with ⟨htEq, hser⟩ | ⟨k2, v2, t2, htEq, hser⟩
      · subst htEq
        simp only [hser, List.cons_append, List.append_assoc, List.nil_append] at hstr hT ⊢
        simp [hskq, hstr, hskColon, hT, hskRBr, (by decide : ¬ (rbrace : Char) = ',')]
      · subst htEq
        obtain ⟨hwv2, hot2, hwt2⟩ : wfJson v2 = true ∧ isObjJ t2 = true ∧ wfJson t2 = true := by
          unfold wfJson at hwt
          simp only [Bool.and_eq_true] at hwt
          exact ⟨hwt.1.1, hwt.1.2, hwt.2⟩
        have hfe2 : fuelFor v2 + fuelFor t2 + 1 ≤ f := by
          have hp := fuelFor_pos v
          simp only [fuelFor] at hfuel
          omega
        have hM2 := ihM k2 v2 t2 rest hwv2 hwt2 hot2 hrest hfe2
        simp only [hser, List.cons_append, List.append_assoc] at hstr hT hM2 ⊢
        simp [hskq, hstr, hskColon, hT, hskComma, hM2]

theorem serVal_length_pos (j : Json) : 1 ≤ (serVal j).length := by
  obtain ⟨c, cs, hsv, _, _, _⟩ := serVal_head j
  rw [hsv]
  simp

theorem fuelFor_le_serVal : ∀ j : Json,
    (wfJson j = true → fuelFor j ≤ 2 * (serVal j).length) ∧
    (wfJson j = true → isJsArray j = true → fuelFor j ≤ 2 * (serJ .arrTail j).length) ∧
    (wfJson j = true → isObjJ j = true → fuelFor j ≤ 2 * (serJ .objTail j).length) := by
  intro j
  induction j with
  | jnull =>
    exact ⟨fun _ => by simp [fuelFor, serVal, serJ], fun _ h => by simp [isJsArray] at h,
      fun _ h => by simp [isObjJ] at h⟩
  | jbool b =>
    refine ⟨fun _ => ?_, fun _ h => by simp [isJsArray] at h, fun _ h => by simp [isObjJ] at h⟩
    have := serVal_length_pos (jbool b)
    simp only [fuelFor]
    omega
  | jnum i =>
    refine ⟨fun _ => ?_, fun _ h => by simp [isJsArray] at h, fun _ h => by simp [isObjJ] at h⟩
    have := serVal_length_pos (jnum i)
    simp only [fuelFor]
    omega
  | jstr s =>
    refine ⟨fun _ => ?_, fun _ h => by simp [isJsArray] at h, fun _ h => by simp [isObjJ] at h⟩
    have := serVal_length_pos (jstr s)
    simp only [fuelFor]
    omega
  | jarrNil =>
    exact ⟨fun _ => by simp [fuelFor, serVal, serJ], fun _ _ => by simp [fuelFor, serJ],
      fun _ h => by simp [isObjJ] at h⟩
  | jobjNil =>
    exact ⟨fun _ => by simp [fuelFor, serVal, serJ], fun _ h => by simp [isJsArray] at h,
      fun _ _ => by simp [fuelFor, serJ]⟩
  | jarrCons h t ihh iht =>
    have hcomp : wfJson (jarrCons h t) = true →
        fuelFor h + fuelFor t + 2 ≤ 2 * ((serVal h).length + (serJ .arrTail t).length + 1) := by
      intro hwf
      unfold wfJson at hwf
      simp only [Bool.and_eq_true] at hwf
      have h1 := ihh.1 hwf.1.1
      have h2 := iht.2.1 hwf.2 hwf.1.2
      omega
    refine ⟨fun hwf => ?_, fun hwf _ => ?_, fun _ hobj => by simp [isObjJ] at hobj⟩
    · have := hcomp hwf
      simp only [fuelFor, serVal, serJ, List.length_cons, List.length_append]
      simp only [serVal] at this
      omega
    · have := hcomp hwf
      simp only [fuelFor, serJ, List.length_cons, List.length_append]
      simp only [serVal] at this
      omega
  | jobjCons k v t ihv iht =>
    have hcomp : wfJson (jobjCons k v t) = true →
        fuelFor v + fuelFor t + 2
          ≤ 2 * ((escapeChars k).length + (serVal v).length + (serJ .objTail t).length + 4) := by
      intro hwf
      unfold wfJson at hwf
      simp only [Bool.and_eq_true] at hwf
      have h1 := ihv.1 hwf.1.1
      have h2 := iht.2.2 hwf.2 hwf.1.2
      omega
    refine ⟨fun hwf => ?_, fun _ harr => by simp [isJsArray] at harr, fun hwf _ => ?_⟩
    · have := hcomp hwf
      simp only [fuelFor, serVal, serJ, List.length_cons, List.length_append]
      simp only [serVal] at this
      omega
    · have := hcomp hwf
      simp only [fuelFor, serJ, List.length_cons, List.length_append]
      simp only [serVal] at this
      omega

theorem jsonParse_serVal (j : Json) (hwf : wfJson j = true) :
    jsonParse (serVal j) = some j := by
  have hfuel : fuelFor j ≤ 2 * (serVal j).length + 1 := by
    have := (fuelFor_le_serVal j).1 hwf
    omega
  have hp := (parseF_roundtrip (2 * (serVal j).length + 1)).1 j [] hwf trivial hfuel
  rw [List.append_nil] at hp
  unfold jsonParse
  rw [hp]
  simp [skipWsJson]

theorem parseF_wf : ∀ fuel : Nat,
    (∀ t j r, parseF fuel .top t = some (j, r) → wfJson j = true) ∧
    (∀ t j r, parseF fuel .elems t = some (j, r) → wfJson j = true ∧ isJsArray j = true) ∧
    (∀ t j r, parseF fuel .members t = some (j, r) → wfJson j = true ∧ isObjJ j = true) := by
  intro fuel
  induction fuel with
  | zero =>
    refine ⟨?_, ?_, ?_⟩ <;> (intro t j r h; simp [parseF] at h)
  | succ f ih =>
    obtain ⟨ihT, ihE, ihM⟩ := ih
    refine ⟨?_, ?_, ?_⟩
    · intro t j r h
      unfold parseF at h
      repeat' split at h
      all_goals first
        | (exact (ihE _ _ _ h).1)
        | (exact (ihM _ _ _ h).1)
        | (injection h with h1
           injection h1 with h2 h3
           subst h2
           rfl)
        | (exact absurd h (by simp))
    · intro t j r h
      unfold parseF at h
      repeat' split at h
      all_goals first
        | (injection h with h1
           injection h1 with h2 h3
           subst h2
           refine ⟨?_, rfl⟩
           simp only [wfJson, Bool.and_eq_true]
           refine ⟨⟨?_, ?_⟩, ?_⟩ <;>
             first
               | rfl
               | trivial
               | exact ihT _ _ _ (by assumption)
               | exact (ihE _ _ _ (by assumption)).1
               | exact (ihE _ _ _ (by assumption)).2)
        | (exact absurd h (by simp))
    · intro t j r h
      unfold parseF at h
      repeat' split at h
      all_goals first
        | (injection h with h1
           injection h1 with h2 h3
           subst h2
           refine ⟨?_, rfl⟩
           simp only [wfJson, Bool.and_eq_true]
           refine ⟨⟨?_, ?_⟩, ?_⟩ <;>
             first
               | rfl
               | trivial
               | exact ihT _ _ _ (by assumption)
               | exact (ihM _ _ _ (by assumption)).1
               | exact (ihM _ _ _ (by assumption)).2)
        | (exact absurd h (by simp))

theorem jsonParse_wf (s : List Char) (j : Json) (h : jsonParse s = some j) :
    wfJson j = true := by
  unfold jsonParse at h
  cases hp : parseF (2 * s.length + 1) .top s with
  | none => rw [hp] at h; cases h
  | some pr =>
    rw [hp] at h
    obtain ⟨j2, r⟩ := pr
    change (if skipWsJson r = [] then some j2 else none) = some j at h
    split at h
    · injection h with h1
      subst h1
      exact (parseF_wf _).1 s j2 r hp
    · cases h

/-! Well-formedness is preserved by member access and array listing, and
array values rebuilt from lists are well-formed truthy arrays. -/

theorem wfJson_jsLookupLast (j : Json) (key : List Char) (v : Json)
    (hwf : wfJson j = true) (h : jsLookupLast j key = some v) : wfJson v = true := by
  induction j with
  | jnull => simp [jsLookupLast] at h
  | jbool b => simp [jsLookupLast] at h
  | jnum n => simp [jsLookupLast] at h
  | jstr s => simp [jsLookupLast] at h
  | jarrNil => simp [jsLookupLast] at h
  | jarrCons a t iha iht => simp [jsLookupLast] at h
  | jobjNil => simp [jsLookupLast] at h
  | jobjCons k w t ihw iht =>
    simp only [wfJson, Bool.and_eq_true] at hwf
    unfold jsLookupLast at h
    cases hl : jsLookupLast t key with
    | some r =>
      rw [hl] at h
      injection h with h
      subst h
      exact iht hwf.2 hl
    | none =>
      rw [hl] at h
      change (if k = key then some w else none) = some v at h
      split at h
      · injection h with h
        subst h
        exact hwf.1.1
      · cases h

theorem wfJson_jsGet (j : Json) (key : List Char) (hwf : wfJson j = true) :
    wfJson (jsGet j key) = true := by
  unfold jsGet
  cases hl : jsLookupLast j key with
  | none => rfl
  | some v => exact wfJson_jsLookupLast j key v hwf hl

theorem wfJson_mem_jarrToList (v : Json) (hwf : wfJson v = true) :
    ∀ x ∈ jarrToList v, wfJson x = true := by
  induction v with
  | jnull => intro x hx; simp [jarrToList] at hx
  | jbool b => intro x hx; simp [jarrToList] at hx
  | jnum n => intro x hx; simp [jarrToList] at hx
  | jstr s => intro x hx; simp [jarrToList] at hx
  | jarrNil => intro x hx; simp [jarrToList] at hx
  | jarrCons a t iha iht =>
    intro x hx
    simp only [wfJson, Bool.and_eq_true] at hwf
    simp only [jarrToList, List.mem_cons] at hx
    rcases hx with rfl | hx
    · exact hwf.1.1
    · exact iht hwf.2 x hx
  | jobjNil => intro x hx; simp [jarrToList] at hx
  | jobjCons k w t ihw iht => intro x hx; simp [jarrToList] at hx

theorem isJsArray_arrOfList (l : List Json) : isJsArray (arrOfList l) = true := by
  cases l <;> rfl

theorem jsTruthy_arrOfList (l : List Json) : jsTruthy (arrOfList l) = true := by
  cases l <;> rfl

theorem jarrToList_arrOfList (l : List Json) : jarrToList (arrOfList l) = l := by
  induction l with
  | nil => rfl
  | cons a t ih => simp [arrOfList, jarrToList, ih]

theorem wfJson_arrOfList (l : List Json) (h : ∀ x ∈ l, wfJson x = true) :
    wfJson (arrOfList l) = true := by
  induction l with
  | nil => rfl
  | cons a t ih =>
    simp only [arrOfList, wfJson, Bool.and_eq_true]
    exact ⟨⟨h a (List.mem_cons_self a t), isJsArray_arrOfList t⟩,
      ih (fun x hx => h x (List.mem_cons_of_mem a hx))⟩

/-- The invariants that every specification returned by buildChartSpec
satisfies: validation facts, well-formed truthy field values, and default
(absent) optional option fields. -/
def specGood (p : ParsedChart) : Prop :=
  p.data.labels ≠ [] ∧
  (∃ d0 rest, p.data.datasets = d0 :: rest ∧ d0.data ≠ []) ∧
  (∀ x ∈ p.data.labels, wfJson x = true) ∧
  (∀ d ∈ p.data.datasets, jsTruthy d.label = true ∧ wfJson d.label = true ∧
      ∀ x ∈ d.data, wfJson x = true) ∧
  jsTruthy p.options.type = true ∧ wfJson p.options.type = true ∧
  (jsTruthy p.options.title = true ∨ p.options.title = Json.jstr []) ∧
  wfJson p.options.title = true ∧
  p.options.watermarkPrompt = none ∧ p.options.backgroundImagePrompt = none ∧
  p.options.backgroundColor = none ∧ p.options.backgroundDescription = none

theorem buildChartSpec_good (text : List Char) (parsed : Json) (spec : ParsedChart)
    (hwf : wfJson parsed = true) (h : buildChartSpec text parsed = some spec) :
    specGood spec := by
  simp only [buildChartSpec] at h
  obtain ⟨hl, hd, ho, hne, d0, rest, hds, hdne⟩ := validateSpec_some _ _ _ _ h
  unfold specGood
  refine ⟨?_, ⟨d0, rest, ?_, hdne⟩, ?_, ?_, ?_, ?_, ?_, ?_, ?_, ?_, ?_, ?_⟩
  · rw [hl]; exact hne
  · rw [hd]; exact hds
  · rw [hl]
    intro x hx
    split at hx
    · exact wfJson_mem_jarrToList _ (wfJson_jsGet parsed _ hwf) x hx
    · simp at hx
  · rw [hd]
    intro d hdm
    split at hdm
    · simp only [List.mem_map] at hdm
      obtain ⟨ds, hdsmem, rfl⟩ := hdm
      have hdswf : wfJson ds = true :=
        wfJson_mem_jarrToList _ (wfJson_jsGet parsed _ hwf) ds hdsmem
      refine ⟨?_, ?_, ?_⟩
      · show jsTruthy (if jsTruthy (jsGet ds ("label".data)) = true
            then jsGet ds ("label".data) else Json.jstr ("Dataset".data)) = true
        split
        · assumption
        · decide
      · show wfJson (if jsTruthy (jsGet ds ("label".data)) = true
            then jsGet ds ("label".data) else Json.jstr ("Dataset".data)) = true
        split
        · exact wfJson_jsGet ds _ hdswf
        · rfl
      · intro x hx
        have hx2 : x ∈ (if isJsArray (jsGet ds ("data".data)) = true
            then jarrToList (jsGet ds ("data".data)) else []) := hx
        split at hx2
        · exact wfJson_mem_jarrToList _ (wfJson_jsGet ds _ hdswf) x hx2
        · simp at hx2
    · split at hdm
      · simp only [List.mem_singleton] at hdm
        subst hdm
        refine ⟨?_, ?_, ?_⟩
        · show jsTruthy (if jsTruthy (jsGet parsed ("label".data)) = true
              then jsGet parsed ("label".data) else Json.jstr ("Data".data)) = true
          split
          · assumption
          · decide
        · show wfJson (if jsTruthy (jsGet parsed ("label".data)) = true
              then jsGet parsed ("label".data) else Json.jstr ("Data".data)) = true
          split
          · exact wfJson_jsGet parsed _ hwf
          · rfl
        · intro x hx
          have hx2 : x ∈ jarrToList (jsGet parsed ("data".data)) := hx
          exact wfJson_mem_jarrToList _ (wfJson_jsGet parsed _ hwf) x hx2
      · simp at hdm
  · simp only [ho]
    repeat' split
    all_goals first | assumption | decide
  · simp only [ho]
    repeat' split
    all_goals first | exact wfJson_jsGet parsed _ hwf | rfl
  · simp only [ho]
    split
    · left; assumption
    · right; rfl
  · simp only [ho]
    split
    · exact wfJson_jsGet parsed _ hwf
    · rfl
  · simp only [ho]
  · simp only [ho]
  · simp only [ho]
  · simp only [ho]

theorem wfJson_specToJson (p : ParsedChart) (h : specGood p) :
    wfJson (specToJson p) = true := by
  obtain ⟨-, -, hlw, hdw, -, htyw, -, htiw, -, -, -, -⟩ := h
  simp only [specToJson, wfJson, isObjJ, Bool.and_eq_true, Bool.and_true, Bool.true_and]
  refine ⟨htyw, htiw, wfJson_arrOfList _ hlw, ?_⟩
  refine wfJson_arrOfList _ ?_
  intro x hx
  simp only [List.mem_map] at hx
  obtain ⟨d, hd, rfl⟩ := hx
  obtain ⟨-, hw, hdata⟩ := hdw d hd
  simp only [wfJson, isObjJ, Bool.and_eq_true, Bool.and_true, Bool.true_and]
  exact ⟨hw, wfJson_arrOfList _ hdata⟩

theorem jsGet_dsObj_label (lab : Json) (dat : List Json) :
    jsGet (Json.jobjCons ['l', 'a', 'b', 'e', 'l'] lab
      (Json.jobjCons ['d', 'a', 't', 'a'] (arrOfList dat) Json.jobjNil))
      ['l', 'a', 'b', 'e', 'l'] = lab := rfl

theorem jsGet_dsObj_data (lab : Json) (dat : List Json) :
    jsGet (Json.jobjCons ['l', 'a', 'b', 'e', 'l'] lab
      (Json.jobjCons ['d', 'a', 't', 'a'] (arrOfList dat) Json.jobjNil))
      ['d', 'a', 't', 'a'] = arrOfList dat := rfl

theorem dsMapLabelId (l : List ParsedDataset) (h : ∀ d ∈ l, jsTruthy d.label = true) :
    l.map (fun d => ({ label := (if jsTruthy d.label then d.label
        else Json.jstr ['D', 'a', 't', 'a', 's', 'e', 't']), data := d.data }
      : ParsedDataset)) = l := by
  induction l with
  | nil => rfl
  | cons d t ih =>
    simp only [List.map_cons]
    rw [ih (fun x hx => h x (List.mem_cons_of_mem d hx))]
    have hd := h d (List.mem_cons_self d t)
    simp [hd]

theorem buildChartSpec_of_good (text : List Char) (p : ParsedChart) (h : specGood p) :
    buildChartSpec text (specToJson p) = some p := by
  obtain ⟨hne, ⟨d0, rest, hds, hdne⟩, -, hdw, hty, -, hti, -, hw1, hw2, hw3, hw4⟩ := h
  have hglab : jsGet (specToJson p) ['l', 'a', 'b', 'e', 'l', 's']
      = arrOfList p.data.labels := rfl
  have hgds : jsGet (specToJson p) ['d', 'a', 't', 'a', 's', 'e', 't', 's']
      = arrOfList (p.data.datasets.map (fun d =>
          Json.jobjCons ['l', 'a', 'b', 'e', 'l'] d.label
            (Json.jobjCons ['d', 'a', 't', 'a'] (arrOfList d.data) Json.jobjNil))) := rfl
  have hgty : jsGet (specToJson p) ['t', 'y', 'p', 'e'] = p.options.type := rfl
  have hgti : jsGet (specToJson p) ['t', 'i', 't', 'l', 'e'] = p.options.title := rfl
  have htitle : (if jsTruthy p.options.title then p.options.title else Json.jstr [])
      = p.options.title := by
    rcases hti with ht | ht
    · simp [ht]
    · rw [ht]
      simp
  have hopt : ({ type := p.options.type, title := p.options.title } : ChartOptions)
      = p.options := by
    have he : p.options = ChartOptions.mk p.options.type p.options.title
        p.options.watermarkPrompt p.options.backgroundImagePrompt
        p.options.backgroundColor p.options.backgroundDescription := rfl
    rw [he, hw1, hw2, hw3, hw4]
  have h1 : 0 < p.data.labels.length := List.length_pos.mpr hne
  have h2 : 0 < d0.data.length := List.length_pos.mpr hdne
  have hl0 : jsTruthy d0.label = true :=
    (hdw d0 (by rw [hds]; exact List.mem_cons_self d0 rest)).1
  have hrest := dsMapLabelId rest
    (fun d hd => (hdw d (by rw [hds]; exact List.mem_cons_of_mem d0 hd)).1)
  simp only [buildChartSpec, hglab, hgds, hgty, hgti]
  rw [hds]
  have hd0eta : ({ label := d0.label, data := d0.data } : ParsedDataset) = d0 := rfl
  simp [jsTruthy_arrOfList, isJsArray_arrOfList, jarrToList_arrOfList,
    jsGet_dsObj_label, jsGet_dsObj_data, hty, htitle, hl0, hrest, hd0eta,
    List.map_map, Function.comp_def, validateSpec, h1, h2]
  rw [← hds, hopt]

theorem parse_some_imp_parsed (text : List Char) (spec : ParsedChart)
    (h : parseChartDataFromText text = some spec) :
    ∃ s parsed, jsonParse s = some parsed ∧ buildChartSpec text parsed = some spec := by
  simp only [parseChartDataFromText] at h
  repeat split at h
  all_goals repeat split at h
  all_goals first
    | (exact ⟨_, _, by assumption, h⟩)
    | simp at h

theorem parse_some_good (text : List Char) (spec : ParsedChart)
    (h : parseChartDataFromText text = some spec) : specGood spec := by
  obtain ⟨s, parsed, hp, hb⟩ := parse_some_imp_parsed text spec h
  exact buildChartSpec_good text parsed spec (jsonParse_wf s parsed hp) hb

def c4WText : List Char :=
  "\x7b\"labels\":[\"a\"],\"datasets\":[\x7b\"label\":\"d\",\"data\":[1]\x7d]\x7d".data

def c4WSpec : ParsedChart :=
  { data :=
      { labels := [Json.jstr ['a']],
        datasets := [{ label := Json.jstr ['d'], data := [Json.jnum 1] }] },
    options := { type := Json.jstr ("bar".data), title := Json.jstr [] } }

/-- C4 (amended): the Extractor is idempotent on every successfully extracted
specification whose JSON serialization contains no triple-backtick run:
re-running parseChartDataFromText on the serialization of the extracted
specification yields the same specification.  (The unamended claim fails
when the serialization itself contains a triple-backtick run, because the
fenced-block pattern then captures a proper fragment of the serialization;
the counterexample theorem exhibits such a specification.) -/
theorem c4_amended_idempotent (text : List Char) (spec : ParsedChart)
    (h : parseChartDataFromText text = some spec)
    (hticks : containsSub (serializeSpec spec) ticksPat = false) :
    parseChartDataFromText (serializeSpec spec) = some spec := by
  have hg := parse_some_good text spec h
  have h1 : matchFenced (serializeSpec spec) ticksJsonPat = none :=
    matchFenced_none_of_no_ticks _ _ ⟨['j', 's', 'o', 'n'], rfl⟩ hticks
  have h2 : matchFenced (serializeSpec spec) ticksPat = none :=
    matchFenced_none_of_no_ticks _ _ (List.prefix_refl _) hticks
  have h3 := matchLabelsDatasets_serializeSpec spec
  have h4 : jsonParse (serializeSpec spec) = some (specToJson spec) :=
    jsonParse_serVal _ (wfJson_specToJson spec hg)
  simp only [parseChartDataFromText, h1, h2, h3, h4]
  exact buildChartSpec_of_good _ spec hg

/-- Witness for C4 (amended) at a concrete extraction. -/
theorem c4_amended_idempotent_witness :
    parseChartDataFromText (serializeSpec c4WSpec) = some c4WSpec :=
  c4_amended_idempotent c4WText c4WSpec (by decide) (by decide)
